import Mathlib

/-!
Verification of the artist-name normalization engine of
src/jellyfin/format-music-file-metadata.py (and the genre logic of
src/jellyfin/format-metadata.py).

Strings are modelled as lists of characters.  The regular-expression
substitutions of parse_artists are embedded by a direct matcher for the
patterns of the source, which all have the shape
whitespace+ core optional-dot whitespace+ ; for these patterns greedy
matching without backtracking coincides with Python re semantics
(leading and trailing whitespace runs are maximal, the core starts with a
non-whitespace character, and the optional dot is never followed by
whitespace when taking it would make the match fail).  re.sub scans left
to right, replaces non-overlapping matches and never rescans replacement
text, which is what subF below does.  Case-insensitivity is modelled as
ASCII case folding, and the whitespace class is the Python str whitespace
set restricted to its standard code points.
-/

namespace Jellyfin

/-- The Python whitespace class (str.isspace and re whitespace). -/
def pyIsSpace (c : Char) : Bool :=
  c.toNat = 9 || c.toNat = 10 || c.toNat = 11 || c.toNat = 12 || c.toNat = 13 ||
  c.toNat = 32 || c.toNat = 28 || c.toNat = 29 || c.toNat = 30 || c.toNat = 31 ||
  c.toNat = 133 || c.toNat = 160 || c.toNat = 0x1680 ||
  (0x2000 ≤ c.toNat && c.toNat ≤ 0x200A) ||
  c.toNat = 0x2028 || c.toNat = 0x2029 || c.toNat = 0x202F ||
  c.toNat = 0x205F || c.toNat = 0x3000

/-- ASCII lower-casing, modelling re.IGNORECASE on the letters that occur
in the join tokens of parse_artists. -/
def toLowerAscii (c : Char) : Char :=
  if c.toNat ≥ 65 && c.toNat ≤ 90 then Char.ofNat (c.toNat + 32) else c

/-- One join-token pattern of parse_artists: the regex
whitespace+ letters optional-dot whitespace+ . -/
structure Token where
  letters : List Char
  optDot : Bool
  ci : Bool
deriving DecidableEq, Repr

/-- The pattern core for feat (regex s+feat.?s+, IGNORECASE). -/
def tokFeat : Token := ⟨['f','e','a','t'], true, true⟩
/-- The pattern core for ft (regex s+ft.?s+, IGNORECASE). -/
def tokFt : Token := ⟨['f','t'], true, true⟩
/-- The pattern core for featuring (regex s+featuring s+, IGNORECASE). -/
def tokFeaturing : Token := ⟨['f','e','a','t','u','r','i','n','g'], false, true⟩
/-- The pattern core for the ampersand (regex s+& s+, no flag). -/
def tokAmp : Token := ⟨['&'], false, false⟩
/-- The pattern core for the word and (regex s+and s+, IGNORECASE). -/
def tokAnd : Token := ⟨['a','n','d'], false, true⟩

/-- The distinct separator tokens recognized by parse_artists. -/
def toks : List Token := [tokFeat, tokFt, tokFeaturing, tokAmp, tokAnd]

/-- Whether pattern character d (stored lower-case) matches input
character c under the case-sensitivity mode ci. -/
def charMatches (ci : Bool) (d c : Char) : Bool :=
  if ci then toLowerAscii c = d else c = d

/-- Match the literal letters of a token against a prefix of l,
returning the number of characters consumed. -/
def consumeLit (ci : Bool) : List Char → List Char → Option Nat
  | [], _ => some 0
  | _ :: _, [] => none
  | d :: ds, c :: cs =>
    if charMatches ci d c then (consumeLit ci ds cs).map (· + 1) else none

/-- Match the token core (letters plus the optional dot) against a prefix
of l, returning the number of characters consumed. -/
def consumeCore (tok : Token) (l : List Char) : Option Nat :=
  match consumeLit tok.ci tok.letters l with
  | none => none
  | some k =>
    if tok.optDot then
      match l.drop k with
      | '.' :: _ => some (k + 1)
      | _ => some k
    else some k

/-- Match the full pattern whitespace+ core whitespace+ at the start of v,
returning the length of the match. -/
def matchAt (tok : Token) (v : List Char) : Option Nat :=
  let w1 := v.takeWhile pyIsSpace
  if w1.length = 0 then none else
  match consumeCore tok (v.drop w1.length) with
  | none => none
  | some k =>
    let w2 := (v.drop (w1.length + k)).takeWhile pyIsSpace
    if w2.length = 0 then none else some (w1.length + k + w2.length)

/-- re.sub for one token pattern with replacement comma-space: scan left
to right, replace each non-overlapping match, never rescan replacement
text.  Fuel-driven; the fuel is set to the string length by subPass. -/
def subF (tok : Token) : Nat → List Char → List Char
  | _, [] => []
  | 0, l => l
  | f + 1, c :: cs =>
    match matchAt tok (c :: cs) with
    | some n => ',' :: ' ' :: subF tok f (List.drop n (c :: cs))
    | none => c :: subF tok f cs

/-- One re.sub pass over a string. -/
def subPass (tok : Token) (s : List Char) : List Char := subF tok s.length s

/-- The eight re.sub passes of parse_artists in source order: the
patterns list feat, ft, featuring, Feat, Ft, Featuring (each applied with
IGNORECASE, so the capitalized passes repeat the matcher), then the
ampersand pass, then the and pass. -/
def substAll (s : List Char) : List Char :=
  subPass tokAnd (subPass tokAmp
    (subPass tokFeaturing (subPass tokFt (subPass tokFeat
      (subPass tokFeaturing (subPass tokFt (subPass tokFeat s)))))))

/-- Python str.split on comma: splits at every comma, keeping empty
pieces; the empty string yields one empty piece. -/
def splitComma : List Char → List (List Char)
  | [] => [[]]
  | c :: rest =>
    if c = ',' then [] :: splitComma rest
    else
      match splitComma rest with
      | [] => [[c]]
      | p :: ps => (c :: p) :: ps

/-- Drop trailing whitespace. -/
def dropTrailWs (l : List Char) : List Char :=
  (l.reverse.dropWhile pyIsSpace).reverse

/-- Python str.strip: drop leading and trailing whitespace. -/
def pyStrip (l : List Char) : List Char :=
  dropTrailWs (l.dropWhile pyIsSpace)

/-- parse_artists (format-music-file-metadata.py lines 19-43): apply the
eight substitution passes, split on commas, strip each piece and drop
empty pieces; the empty input returns the empty list. -/
def parseArtists (s : List Char) : List (List Char) :=
  if s.isEmpty then []
  else ((splitComma (substAll s)).map pyStrip).filter (fun p => !p.isEmpty)

/-- Semicolon join (format_artists_to_semicolon, line 46-48). -/
def joinSemi : List (List Char) → List Char
  | [] => []
  | [p] => p
  | p :: q :: ps => p ++ ';' :: joinSemi (q :: ps)

/-- Whether the token pattern matches anywhere in l (at any suffix). -/
def hasMatchB (tok : Token) : List Char → Bool
  | [] => false
  | c :: cs => (matchAt tok (c :: cs)).isSome || hasMatchB tok cs

/-! ### Character facts -/

/-- Whitespace characters are unchanged by ASCII lower-casing. -/
lemma toLowerAscii_ws {c : Char} (h : pyIsSpace c = true) : toLowerAscii c = c := by
  have h' : ¬(65 ≤ c.toNat ∧ c.toNat ≤ 90) := by
    simp only [pyIsSpace, Bool.or_eq_true, Bool.and_eq_true, decide_eq_true_eq] at h
    omega
  unfold toLowerAscii
  rw [if_neg]
  simp only [ge_iff_le, Bool.and_eq_true, decide_eq_true_eq]
  exact fun hc => h' ⟨hc.1, hc.2⟩

/-- Characters that can occur in the core of a token match. -/
def sepCharB (tok : Token) (c : Char) : Bool :=
  c == '.' || tok.letters.any (fun d => charMatches tok.ci d c)

/-- Wellformedness of a token: at least one letter, and every letter is a
non-whitespace character other than comma and semicolon. -/
@[reducible] def tokGood (tok : Token) : Prop :=
  tok.letters ≠ [] ∧ ∀ d ∈ tok.letters,
    pyIsSpace d = false ∧ d ≠ ',' ∧ d ≠ ';'

lemma toks_good : ∀ tok ∈ toks, tokGood tok := by decide

/-- A character matched by the core of a wellformed token is not
whitespace, not a comma and not a semicolon. -/
lemma sepCharB_props {tok : Token} (hg : tokGood tok) {c : Char}
    (h : sepCharB tok c = true) : pyIsSpace c = false ∧ c ≠ ',' ∧ c ≠ ';' := by
  rcases Bool.or_eq_true _ _ |>.mp h with hdot | hletter
  · have : c = '.' := by simpa using hdot
    subst this
    refine ⟨by decide, by decide, by decide⟩
  · rcases List.any_eq_true.mp hletter with ⟨d, hd, hm⟩
    have hprops := hg.2 d hd
    unfold charMatches at hm
    by_cases hci : tok.ci
    · rw [if_pos hci] at hm
      have hlow : toLowerAscii c = d := by simpa using hm
      refine ⟨?_, ?_, ?_⟩
      · by_contra hws
        have hws' : pyIsSpace c = true := by
          cases hpc : pyIsSpace c
          · exact absurd hpc hws
          · rfl
        rw [toLowerAscii_ws hws'] at hlow
        rw [hlow] at hws'
        rw [hprops.1] at hws'
        exact Bool.false_ne_true hws'
      · rintro rfl
        have : d = ',' := by rw [← hlow]; decide
        exact hprops.2.1 this
      · rintro rfl
        have : d = ';' := by rw [← hlow]; decide
        exact hprops.2.2 this
    · rw [if_neg hci] at hm
      have hcd : c = d := by simpa using hm
      subst hcd
      exact hprops

/-! ### consumeLit and consumeCore -/

lemma consumeLit_some {ci : Bool} : ∀ {ds l : List Char} {k : Nat},
    consumeLit ci ds l = some k → k = ds.length ∧ ds.length ≤ l.length := by
  intro ds
  induction ds with
  | nil =>
    intro l k h
    simp only [consumeLit, Option.some.injEq] at h
    exact ⟨h.symm, by simp⟩
  | cons d ds ih =>
    intro l k h
    cases l with
    | nil => simp [consumeLit] at h
    | cons c cs =>
      simp only [consumeLit] at h
      split at h
      · cases hc : consumeLit ci ds cs with
        | none => rw [hc] at h; simp at h
        | some k0 =>
          rw [hc] at h
          simp only [Option.map_some', Option.some.injEq] at h
          obtain ⟨h1, h2⟩ := ih hc
          subst h1
          simp only [List.length_cons]
          omega
      · exact absurd h (by simp)

lemma consumeLit_chars {ci : Bool} : ∀ {ds l : List Char} {k : Nat},
    consumeLit ci ds l = some k →
    ∀ c ∈ l.take k, ∃ d ∈ ds, charMatches ci d c = true := by
  intro ds
  induction ds with
  | nil =>
    intro l k h c hc
    simp only [consumeLit, Option.some.injEq] at h
    subst h
    simp at hc
  | cons d ds ih =>
    intro l k h c hc
    cases l with
    | nil => simp [consumeLit] at h
    | cons c0 cs =>
      simp only [consumeLit] at h
      split at h
      case isTrue hmatch =>
        cases hcl : consumeLit ci ds cs with
        | none => rw [hcl] at h; simp at h
        | some k0 =>
          rw [hcl] at h
          simp only [Option.map_some', Option.some.injEq] at h
          subst h
          rcases List.mem_take_iff_getElem.mp hc with ⟨i, hi, hgi⟩
          cases i with
          | zero =>
            simp only [List.getElem_cons_zero] at hgi
            exact ⟨d, by simp, hgi ▸ hmatch⟩
          | succ j =>
            have hj : c ∈ cs.take k0 := by
              apply List.mem_take_iff_getElem.mpr
              refine ⟨j, ?_, ?_⟩
              · simp only [List.length_cons, lt_min_iff] at hi
                simp only [lt_min_iff]
                omega
              · simpa using hgi
            rcases ih hcl c hj with ⟨d', hd', hm'⟩
            exact ⟨d', by simp [hd'], hm'⟩
      case isFalse => exact absurd h (by simp)

lemma consumeLit_congr {ci : Bool} : ∀ {ds l l' : List Char} {m : Nat},
    ds.length ≤ m → l.take m = l'.take m →
    consumeLit ci ds l = consumeLit ci ds l' := by
  intro ds
  induction ds with
  | nil => intro l l' m _ _; simp [consumeLit]
  | cons d ds ih =>
    intro l l' m hm hpre
    have hm1 : 1 ≤ m := by simp only [List.length_cons] at hm; omega
    cases l with
    | nil =>
      cases l' with
      | nil => rfl
      | cons c' cs' =>
        exfalso
        rw [List.take_nil] at hpre
        cases m with
        | zero => omega
        | succ m' => simp [List.take_succ_cons] at hpre
    | cons c cs =>
      cases l' with
      | nil =>
        exfalso
        rw [List.take_nil] at hpre
        cases m with
        | zero => omega
        | succ m' => simp [List.take_succ_cons] at hpre
      | cons c' cs' =>
        cases m with
        | zero => omega
        | succ m' =>
          rw [List.take_succ_cons, List.take_succ_cons] at hpre
          have hc : c = c' := (List.cons.injEq _ _ _ _ ▸ hpre).1
          have hcs : cs.take m' = cs'.take m' := (List.cons.injEq _ _ _ _ ▸ hpre).2
          subst hc
          simp only [consumeLit]
          have hm' : ds.length ≤ m' := by
            simp only [List.length_cons] at hm; omega
          rw [ih hm' hcs]

lemma consumeCore_bounds {tok : Token} {l : List Char} {k : Nat}
    (h : consumeCore tok l = some k) :
    tok.letters.length ≤ k ∧ k ≤ l.length := by
  unfold consumeCore at h
  cases hcl : consumeLit tok.ci tok.letters l with
  | none => rw [hcl] at h; exact absurd h (by simp)
  | some k0 =>
    rw [hcl] at h
    dsimp only [] at h
    obtain ⟨hk0, hlen⟩ := consumeLit_some hcl
    subst hk0
    by_cases hdot : tok.optDot
    · rw [if_pos hdot] at h
      split at h
      case _ tail heq =>
        have hn : k = tok.letters.length + 1 := by
          have := Option.some.injEq _ _ ▸ h
          omega
        have hlt : tok.letters.length < l.length := by
          by_contra hle
          rw [List.drop_eq_nil_of_le (by omega)] at heq
          exact absurd heq (by simp)
        omega
      case _ =>
        have hn : k = tok.letters.length := by
          have := Option.some.injEq _ _ ▸ h
          omega
        omega
    · rw [if_neg hdot] at h
      have hn : k = tok.letters.length := by
        have := Option.some.injEq _ _ ▸ h
        omega
      omega

lemma consumeCore_chars {tok : Token} {l : List Char} {k : Nat}
    (h : consumeCore tok l = some k) :
    ∀ c ∈ l.take k, sepCharB tok c = true := by
  unfold consumeCore at h
  cases hcl : consumeLit tok.ci tok.letters l with
  | none => rw [hcl] at h; exact absurd h (by simp)
  | some k0 =>
    rw [hcl] at h
    dsimp only [] at h
    have hbase : ∀ c ∈ l.take k0, sepCharB tok c = true := by
      intro c hc
      rcases consumeLit_chars hcl c hc with ⟨d, hd, hm⟩
      unfold sepCharB
      exact (Bool.or_eq_true _ _).mpr (Or.inr (List.any_eq_true.mpr ⟨d, hd, hm⟩))
    have hdotcase : ∀ c ∈ l.take (k0 + 1), l.drop k0 = '.' :: (l.drop (k0 + 1)) →
        sepCharB tok c = true := by
      intro c hc hdrop
      rw [List.take_succ] at hc
      rcases List.mem_append.mp hc with hc0 | hc1
      · exact hbase c hc0
      · have : l[k0]? = some '.' := by
          rw [← List.head?_drop, hdrop]; rfl
        rw [this] at hc1
        simp only [Option.toList_some, List.mem_singleton] at hc1
        subst hc1
        simp [sepCharB]
    by_cases hdot : tok.optDot
    · rw [if_pos hdot] at h
      split at h
      case _ tail heq =>
        have hk : k = k0 + 1 := by
          have := Option.some.injEq _ _ ▸ h
          omega
        subst hk
        intro c hc
        refine hdotcase c hc ?_
        rw [heq]
        have : tail = l.drop (k0 + 1) := by
          have h2 := congrArg (List.drop 1) heq
          simpa [List.drop_drop, Nat.add_comm] using h2.symm
        rw [this]
      case _ =>
        have hk : k = k0 := by
          have := Option.some.injEq _ _ ▸ h
          omega
        subst hk
        exact hbase
    · rw [if_neg hdot] at h
      have hk : k = k0 := by
        have := Option.some.injEq _ _ ▸ h
        omega
      subst hk
      exact hbase

lemma consumeCore_congr {tok : Token} {l l' : List Char} {m : Nat}
    (hm : tok.letters.length < m) (hpre : l.take m = l'.take m) :
    consumeCore tok l = consumeCore tok l' := by
  unfold consumeCore
  rw [consumeLit_congr (Nat.le_of_lt hm) hpre]
  cases hcl : consumeLit tok.ci tok.letters l' with
  | none => rfl
  | some k0 =>
    obtain ⟨hk0, _⟩ := consumeLit_some hcl
    subst hk0
    dsimp only []
    by_cases hdot : tok.optDot
    · rw [if_pos hdot, if_pos hdot]
      have hhead : (l.drop tok.letters.length).head? =
          (l'.drop tok.letters.length).head? := by
        rw [List.head?_drop, List.head?_drop]
        have h1 := congrArg (fun t => t[tok.letters.length]?) hpre
        simpa [List.getElem?_take, hm] using h1
      split
      case _ tail heq =>
        rw [heq] at hhead
        split
        case _ tail' heq' => rfl
        case _ hno =>
          exfalso
          cases hd' : l'.drop tok.letters.length with
          | nil => rw [hd'] at hhead; simp at hhead
          | cons c' t' =>
            rw [hd'] at hhead
            simp only [List.head?_cons, Option.some.injEq] at hhead
            exact hno t' (by rw [hd', ← hhead])
      case _ hno =>
        split
        case _ tail' heq' =>
          exfalso
          rw [heq'] at hhead
          cases hd : l.drop tok.letters.length with
          | nil => rw [hd] at hhead; simp at hhead
          | cons c t =>
            rw [hd] at hhead
            simp only [List.head?_cons, Option.some.injEq] at hhead
            exact hno t (by rw [hd, hhead])
        case _ => rfl
    · rw [if_neg hdot, if_neg hdot]

/-! ### matchAt -/

lemma matchAt_inv {tok : Token} {v : List Char} {n : Nat}
    (h : matchAt tok v = some n) :
    ∃ k, (v.takeWhile pyIsSpace).length ≠ 0 ∧
      consumeCore tok (v.drop (v.takeWhile pyIsSpace).length) = some k ∧
      ((v.drop ((v.takeWhile pyIsSpace).length + k)).takeWhile pyIsSpace).length ≠ 0 ∧
      n = (v.takeWhile pyIsSpace).length + k +
        ((v.drop ((v.takeWhile pyIsSpace).length + k)).takeWhile pyIsSpace).length := by
  unfold matchAt at h
  dsimp only [] at h
  split at h
  · exact absurd h (by simp)
  · split at h
    · exact absurd h (by simp)
    case _ k hk =>
      split at h
      · exact absurd h (by simp)
      · refine ⟨k, by assumption, hk, by assumption, ?_⟩
        exact (Option.some.injEq _ _ ▸ h).symm

lemma matchAt_eq_some_of {tok : Token} {v : List Char} {k : Nat}
    (h1 : (v.takeWhile pyIsSpace).length ≠ 0)
    (h2 : consumeCore tok (v.drop (v.takeWhile pyIsSpace).length) = some k)
    (h3 : ((v.drop ((v.takeWhile pyIsSpace).length + k)).takeWhile pyIsSpace).length ≠ 0) :
    matchAt tok v = some ((v.takeWhile pyIsSpace).length + k +
      ((v.drop ((v.takeWhile pyIsSpace).length + k)).takeWhile pyIsSpace).length) := by
  unfold matchAt
  dsimp only []
  rw [if_neg h1, h2]
  dsimp only []
  rw [if_neg h3]

lemma matchAt_pos {tok : Token} {v : List Char} {n : Nat}
    (h : matchAt tok v = some n) : 0 < n := by
  rcases matchAt_inv h with ⟨k, h1, _, h3, hn⟩
  omega

lemma matchAt_le_length {tok : Token} {v : List Char} {n : Nat}
    (h : matchAt tok v = some n) : n ≤ v.length := by
  rcases matchAt_inv h with ⟨k, h1, h2, h3, hn⟩
  have ha : (v.takeWhile pyIsSpace).length ≤ v.length :=
    (List.takeWhile_prefix _).length_le
  have hk : k ≤ (v.drop (v.takeWhile pyIsSpace).length).length :=
    (consumeCore_bounds h2).2
  have hb : ((v.drop ((v.takeWhile pyIsSpace).length + k)).takeWhile pyIsSpace).length ≤
      (v.drop ((v.takeWhile pyIsSpace).length + k)).length :=
    (List.takeWhile_prefix _).length_le
  rw [List.length_drop] at hk
  rw [List.length_drop] at hb
  omega

lemma matchAt_none_of_not_ws {tok : Token} {c : Char} {cs : List Char}
    (h : pyIsSpace c = false) : matchAt tok (c :: cs) = none := by
  unfold matchAt
  dsimp only []
  rw [if_pos]
  rw [List.takeWhile_cons, h]
  simp

lemma matchAt_chars {tok : Token} {v : List Char} {n : Nat}
    (h : matchAt tok v = some n) :
    ∀ c ∈ v.take n, pyIsSpace c = true ∨ sepCharB tok c = true := by
  rcases matchAt_inv h with ⟨k, h1, h2, h3, hn⟩
  set a := (v.takeWhile pyIsSpace).length with ha
  set b := ((v.drop (a + k)).takeWhile pyIsSpace).length with hb
  intro c hc
  rw [hn, List.take_add, List.take_add] at hc
  rcases List.mem_append.mp hc with hc' | hcw2
  · rcases List.mem_append.mp hc' with hcw1 | hccore
    · left
      have : v.take a = v.takeWhile pyIsSpace :=
        (List.prefix_iff_eq_take.mp (List.takeWhile_prefix _)).symm
      rw [this] at hcw1
      exact List.mem_takeWhile_imp hcw1
    · right
      exact consumeCore_chars h2 c hccore
  · left
    have : (v.drop (a + k)).take b = (v.drop (a + k)).takeWhile pyIsSpace :=
      (List.prefix_iff_eq_take.mp (List.takeWhile_prefix _)).symm
    rw [this] at hcw2
    exact List.mem_takeWhile_imp hcw2

/-- takeWhile only depends on a prefix that strictly contains it. -/
lemma takeWhile_congr {p : Char → Bool} : ∀ {l l' : List Char} {m : Nat},
    l.take m = l'.take m → (l.takeWhile p).length < m →
    l'.takeWhile p = l.takeWhile p := by
  intro l
  induction l with
  | nil =>
    intro l' m hpre hlen
    simp only [List.takeWhile_nil, List.length_nil] at hlen ⊢
    rw [List.take_nil] at hpre
    cases l' with
    | nil => rfl
    | cons c' cs' =>
      exfalso
      cases m with
      | zero => omega
      | succ m' => simp [List.take_succ_cons] at hpre
  | cons c cs ih =>
    intro l' m hpre hlen
    cases m with
    | zero => omega
    | succ m' =>
      cases l' with
      | nil =>
        exfalso
        rw [List.take_nil] at hpre
        simp [List.take_succ_cons] at hpre
      | cons c' cs' =>
        rw [List.take_succ_cons, List.take_succ_cons] at hpre
        have hcc : c = c' := (List.cons.injEq _ _ _ _ ▸ hpre).1
        have hcs : cs.take m' = cs'.take m' := (List.cons.injEq _ _ _ _ ▸ hpre).2
        subst hcc
        rw [List.takeWhile_cons, List.takeWhile_cons]
        cases hp : p c with
        | true =>
          rw [List.takeWhile_cons, hp] at hlen
          simp at hlen
          have hih := ih hcs (by omega)
          simp [hih]
        | false => simp

/-- Whether matchAt succeeds only depends on the matched region. -/
lemma matchAt_some_of_prefix {tok : Token} (hg : tokGood tok)
    {v v' : List Char} {n : Nat}
    (h : matchAt tok v = some n) (hpre : v.take n = v'.take n) :
    matchAt tok v' ≠ none := by
  rcases matchAt_inv h with ⟨k, h1, h2, h3, hn⟩
  set a := (v.takeWhile pyIsSpace).length with ha
  have hlet : 1 ≤ tok.letters.length :=
    List.length_pos_of_ne_nil hg.1
  have hkb := consumeCore_bounds h2
  have hblen : 1 ≤ ((v.drop (a + k)).takeWhile pyIsSpace).length := by omega
  have haln : a + k < n := by omega
  have han : a < n := by omega
  have hnv : n ≤ v.length := matchAt_le_length h
  have hnv' : n ≤ v'.length := by
    have := congrArg List.length hpre
    simp only [List.length_take] at this
    omega
  -- the leading whitespace run is the same
  have hw1 : v'.takeWhile pyIsSpace = v.takeWhile pyIsSpace :=
    takeWhile_congr hpre (by omega)
  -- consumeCore succeeds at the same position
  have hcore : consumeCore tok (v'.drop a) = some k := by
    rw [← consumeCore_congr (m := n - a) (by omega) ?_]
    · exact h2
    · rw [List.take_drop, List.take_drop]
      have : a + (n - a) = n := by omega
      rw [this, hpre]
  -- the trailing whitespace run is nonempty
  have hhead : v[a + k]? = v'[a + k]? := by
    have h1' := congrArg (fun t => t[a + k]?) hpre
    simpa [List.getElem?_take, haln] using h1'
  have hwsv : ∃ c t, v.drop (a + k) = c :: t ∧ pyIsSpace c = true := by
    cases hD : v.drop (a + k) with
    | nil => rw [hD] at hblen; simp at hblen
    | cons c t =>
      refine ⟨c, t, rfl, ?_⟩
      rw [hD] at hblen
      rw [List.takeWhile_cons] at hblen
      cases hp : pyIsSpace c with
      | true => rfl
      | false => rw [hp] at hblen; simp at hblen
  rcases hwsv with ⟨c, t, hD, hws⟩
  have hv'c : ∃ t', v'.drop (a + k) = c :: t' := by
    have hv : v[a + k]? = some c := by
      rw [← List.head?_drop, hD]; rfl
    rw [hv] at hhead
    cases hD' : v'.drop (a + k) with
    | nil =>
      exfalso
      have := List.head?_drop v' (a + k)
      rw [hD'] at this
      rw [← hhead] at this
      simp at this
    | cons c' t' =>
      have := List.head?_drop v' (a + k)
      rw [hD'] at this
      rw [← hhead] at this
      simp only [List.head?_cons, Option.some.injEq] at this
      subst this
      exact ⟨t', rfl⟩
  rcases hv'c with ⟨t', hD'⟩
  have hb' : ((v'.drop (a + k)).takeWhile pyIsSpace).length ≠ 0 := by
    rw [hD', List.takeWhile_cons, hws]
    simp
  have h1' : (v'.takeWhile pyIsSpace).length ≠ 0 := by rw [hw1]; exact h1
  have hcore' : consumeCore tok (v'.drop (v'.takeWhile pyIsSpace).length) = some k := by
    rw [hw1]; exact hcore
  have := matchAt_eq_some_of h1' hcore' (by rw [hw1]; exact hb')
  rw [this]
  simp

/-! ### subF structure -/

lemma matchAt_nil {tok : Token} : matchAt tok [] = none := rfl

lemma subF_succ_cons (tok : Token) (f : Nat) (c : Char) (cs : List Char) :
    subF tok (f + 1) (c :: cs) =
      match matchAt tok (c :: cs) with
      | some n => ',' :: ' ' :: subF tok f (List.drop n (c :: cs))
      | none => c :: subF tok f cs := rfl

/-- The output of one re.sub pass is either the input unchanged, or agrees
with the input up to some prefix and then has a comma (the first inserted
replacement). -/
lemma subF_shape (tok : Token) : ∀ (f : Nat) (s : List Char),
    subF tok f s = s ∨
    ∃ a rest b, s = a ++ b ∧ subF tok f s = a ++ ',' :: rest := by
  intro f
  induction f with
  | zero => intro s; cases s <;> exact Or.inl rfl
  | succ f ih =>
    intro s
    cases s with
    | nil => exact Or.inl rfl
    | cons c cs =>
      rw [subF_succ_cons]
      cases hm : matchAt tok (c :: cs) with
      | some n =>
        right
        exact ⟨[], ' ' :: subF tok f (List.drop n (c :: cs)), c :: cs, rfl, rfl⟩
      | none =>
        dsimp only []
        rcases ih cs with hid | ⟨a, rest, b, hb, hout⟩
        · left; rw [hid]
        · right
          refine ⟨c :: a, rest, b, ?_, ?_⟩
          · rw [hb, List.cons_append]
          · rw [hout, List.cons_append]

/-- If a wellformed token matches at the start of a list that has a comma
after position a, the match ends before the comma. -/
lemma matchAt_comma_bound {tok : Token} (hg : tokGood tok)
    {a rest : List Char} {n : Nat}
    (h : matchAt tok (a ++ ',' :: rest) = some n) : n ≤ a.length := by
  by_contra hgt
  have hmem : ',' ∈ (a ++ ',' :: rest).take n := by
    have : (a ++ ',' :: rest).take n = a ++ (',' :: rest).take (n - a.length) := by
      rw [List.take_append_eq_append_take]
      rw [List.take_of_length_le (by omega)]
    rw [this]
    refine List.mem_append.mpr (Or.inr ?_)
    cases hnn : n - a.length with
    | zero => exact absurd hnn (by omega)
    | succ m => rw [List.take_succ_cons]; exact List.mem_cons_self _ _
  rcases matchAt_chars h ',' hmem with hws | hsep
  · exact absurd hws (by decide)
  · exact absurd ((sepCharB_props hg hsep).2.1) (by simp)

/-- A match against a string that continues with a comma transfers to any
other continuation of the same prefix. -/
lemma matchAt_shape_transfer {tok : Token} (hg : tokGood tok)
    {a rest b : List Char} {n : Nat}
    (h : matchAt tok (a ++ ',' :: rest) = some n) :
    matchAt tok (a ++ b) ≠ none := by
  have hn : n ≤ a.length := matchAt_comma_bound hg h
  refine matchAt_some_of_prefix hg h ?_
  rw [List.take_append_eq_append_take, List.take_append_eq_append_take]
  have : n - a.length = 0 := by omega
  rw [this]
  simp

/-- If the token does not match at the head of the input, it does not
match at the head of the pass output either. -/
lemma matchAt_cons_subF {tok : Token} (hg : tokGood tok) {c : Char}
    {cs : List Char} {f : Nat}
    (hnone : matchAt tok (c :: cs) = none) :
    matchAt tok (c :: subF tok f cs) = none := by
  rcases subF_shape tok f cs with hid | ⟨a, rest, b, hb, hout⟩
  · rw [hid]; exact hnone
  · rw [hout]
    cases hm : matchAt tok (c :: (a ++ ',' :: rest)) with
    | none => rfl
    | some n =>
      exfalso
      have hm' : matchAt tok ((c :: a) ++ ',' :: rest) = some n := by
        rw [List.cons_append]; exact hm
      have htr := matchAt_shape_transfer hg (b := b) hm'
      apply htr
      rw [List.cons_append, ← hb]
      exact hnone

/-! ### The after-comma invariant -/

/-- All characters of u after its last comma are whitespace (or u is
whitespace-only).  This is the shape of any prefix of a pass output that
can precede a token match. -/
def tailCommaWs (u : List Char) : Prop :=
  match u.reverse.dropWhile pyIsSpace with
  | [] => True
  | c :: _ => c = ','

lemma tailCommaWs_append_comma (x : List Char) : tailCommaWs (x ++ [',']) := by
  unfold tailCommaWs
  have h1 : (x ++ [',']).reverse = ',' :: x.reverse := by simp
  rw [h1, List.dropWhile_cons]
  rw [if_neg (by simp [pyIsSpace])]

lemma tailCommaWs_comma_space_allws {u : List Char} (x : List Char)
    (hall : ∀ c ∈ u, pyIsSpace c = true) :
    tailCommaWs (x ++ ',' :: ' ' :: u) := by
  unfold tailCommaWs
  have h1 : (x ++ ',' :: ' ' :: u).reverse = u.reverse ++ (' ' :: ',' :: x.reverse) := by
    simp
  rw [h1]
  have hnilu : u.reverse.dropWhile pyIsSpace = [] := by
    rw [List.dropWhile_eq_nil_iff]
    intro c hc
    exact hall c (List.mem_reverse.mp hc)
  rw [List.dropWhile_append, hnilu]
  simp only [List.isEmpty_nil, if_true]
  rw [List.dropWhile_cons, if_pos (by decide : pyIsSpace ' ' = true)]
  rw [List.dropWhile_cons]
  rw [if_neg (by simp [pyIsSpace])]

lemma tailCommaWs_append_iff {u : List Char} (x : List Char)
    (hnw : ∃ c ∈ u, pyIsSpace c = false) :
    tailCommaWs (x ++ u) ↔ tailCommaWs u := by
  unfold tailCommaWs
  rw [List.reverse_append]
  have hne : u.reverse.dropWhile pyIsSpace ≠ [] := by
    rw [Ne, List.dropWhile_eq_nil_iff]
    push_neg
    rcases hnw with ⟨c, hc, hws⟩
    exact ⟨c, List.mem_reverse.mpr hc, by simp [hws]⟩
  rw [List.dropWhile_append]
  rw [if_neg (by simpa using hne)]
  cases hD : u.reverse.dropWhile pyIsSpace with
  | nil => exact absurd hD hne
  | cons c t => simp

lemma tailCommaWs_allws {u : List Char}
    (hall : ∀ c ∈ u, pyIsSpace c = true) : tailCommaWs u := by
  unfold tailCommaWs
  have : u.reverse.dropWhile pyIsSpace = [] := by
    rw [List.dropWhile_eq_nil_iff]
    intro c hc
    exact hall c (List.mem_reverse.mp hc)
  rw [this]
  trivial

/-- Every token match inside l is preceded (relative to the ambient
prefix pre) only by whitespace back to a comma or to the start. -/
def GoodFrom (pre : List Char) (tok : Token) (l : List Char) : Prop :=
  ∀ u v : List Char, l = u ++ v → matchAt tok v ≠ none → tailCommaWs (pre ++ u)

lemma GoodFrom_nil {pre : List Char} {tok : Token} : GoodFrom pre tok [] := by
  intro u v huv hm
  have hu : v = [] := by
    have := congrArg List.length huv
    simp only [List.length_nil, List.length_append] at this
    exact List.eq_nil_of_length_eq_zero (by omega)
  rw [hu] at hm
  exact absurd matchAt_nil hm

lemma GoodFrom_cons {pre : List Char} {tok : Token} {c : Char} {l : List Char}
    (h : GoodFrom pre tok (c :: l)) : GoodFrom (pre ++ [c]) tok l := by
  intro u v huv hm
  have := h (c :: u) v (by rw [huv, List.cons_append]) hm
  simpa [List.append_assoc] using this

/-- Self invariant: the output of a pass for a token satisfies the
after-comma invariant for that token, whatever precedes it. -/
lemma subF_good_self {tok : Token} (hg : tokGood tok) :
    ∀ (f : Nat) (s : List Char) (pre : List Char), s.length ≤ f →
    GoodFrom pre tok (subF tok f s) := by
  intro f
  induction f with
  | zero =>
    intro s pre hlen
    have : s = [] := List.eq_nil_of_length_eq_zero (by omega)
    subst this
    exact GoodFrom_nil
  | succ f ih =>
    intro s pre hlen
    cases s with
    | nil => exact GoodFrom_nil
    | cons c cs =>
      rw [subF_succ_cons]
      cases hm : matchAt tok (c :: cs) with
      | none =>
        dsimp only []
        intro u v huv hmv
        cases u with
        | nil =>
          exfalso
          rw [List.nil_append] at huv
          rw [← huv] at hmv
          exact hmv (matchAt_cons_subF hg hm)
        | cons c0 u' =>
          rw [List.cons_append] at huv
          injection huv with hc0 hrest
          subst hc0
          have hlen' : cs.length ≤ f := by
            simp only [List.length_cons] at hlen; omega
          have := ih cs (pre ++ [c]) hlen' u' v hrest hmv
          simpa [List.append_assoc] using this
      | some n =>
        dsimp only []
        have hlen' : (List.drop n (c :: cs)).length ≤ f := by
          have hp := matchAt_pos hm
          simp only [List.length_drop, List.length_cons]
          simp only [List.length_cons] at hlen
          omega
        intro u v huv hmv
        cases u with
        | nil =>
          exfalso
          rw [List.nil_append] at huv
          rw [← huv] at hmv
          exact hmv (matchAt_none_of_not_ws (by decide))
        | cons c0 u₂ =>
          rw [List.cons_append] at huv
          injection huv with hc0 h2
          subst hc0
          cases u₂ with
          | nil => exact tailCommaWs_append_comma pre
          | cons c1 u₃ =>
            rw [List.cons_append] at h2
            injection h2 with hc1 h3
            subst hc1
            have := ih (List.drop n (c :: cs)) (pre ++ [',', ' ']) hlen' u₃ v h3 hmv
            simpa [List.append_assoc] using this

/-- Preservation: a later pass for any token preserves the after-comma
invariant of an earlier token. -/
lemma subF_good_preserve {t : Token} (hgt : tokGood t) (tok : Token) :
    ∀ (f : Nat) (s : List Char) (pre : List Char),
    GoodFrom pre t s → GoodFrom pre t (subF tok f s) := by
  intro f
  induction f with
  | zero =>
    intro s pre hgood
    cases s with
    | nil => exact GoodFrom_nil
    | cons c cs => exact hgood
  | succ f ih =>
    intro s pre hgood
    cases s with
    | nil => exact GoodFrom_nil
    | cons c cs =>
      rw [subF_succ_cons]
      cases hm : matchAt tok (c :: cs) with
      | none =>
        dsimp only []
        intro u v huv hmv
        cases u with
        | nil =>
          rw [List.nil_append] at huv
          rw [← huv] at hmv
          have hv : matchAt t (c :: cs) ≠ none := by
            rcases subF_shape tok f cs with hid | ⟨a, rest, b, hb, hout⟩
            · rw [← hid]; exact hmv
            · rw [hout] at hmv
              cases hmm : matchAt t (c :: (a ++ ',' :: rest)) with
              | none => exact absurd hmm hmv
              | some n =>
                have hm' : matchAt t ((c :: a) ++ ',' :: rest) = some n := by
                  rw [List.cons_append]; exact hmm
                have htr := matchAt_shape_transfer hgt (b := b) hm'
                intro hcc
                apply htr
                rw [List.cons_append, ← hb]
                exact hcc
          have := hgood [] (c :: cs) rfl hv
          simpa using this
        | cons c0 u' =>
          rw [List.cons_append] at huv
          injection huv with hc0 hrest
          subst hc0
          have := ih cs (pre ++ [c]) (GoodFrom_cons hgood) u' v hrest hmv
          simpa [List.append_assoc] using this
      | some n =>
        dsimp only []
        intro u v huv hmv
        cases u with
        | nil =>
          exfalso
          rw [List.nil_append] at huv
          rw [← huv] at hmv
          exact hmv (matchAt_none_of_not_ws (by decide))
        | cons c0 u₂ =>
          rw [List.cons_append] at huv
          injection huv with hc0 h2
          subst hc0
          cases u₂ with
          | nil => exact tailCommaWs_append_comma pre
          | cons c1 u₃ =>
            rw [List.cons_append] at h2
            injection h2 with hc1 h3
            subst hc1
            have hgrest : GoodFrom (pre ++ [',', ' ']) t (List.drop n (c :: cs)) := by
              intro u'' v'' h1 h2'
              have hsplit : c :: cs = List.take n (c :: cs) ++ (u'' ++ v'') := by
                rw [← h1, List.take_append_drop]
              have htcw := hgood (List.take n (c :: cs) ++ u'') v''
                (by rw [List.append_assoc, ← hsplit]) h2'
              by_cases hall : ∀ ch ∈ u'', pyIsSpace ch = true
              · have := tailCommaWs_comma_space_allws (u := u'') pre hall
                simpa [List.append_assoc] using this
              · push_neg at hall
                rcases hall with ⟨ch, hch, hwsch⟩
                have hnw : ∃ ch ∈ u'', pyIsSpace ch = false := ⟨ch, hch, by simpa using hwsch⟩
                have h4 : tailCommaWs u'' := by
                  rw [← tailCommaWs_append_iff (pre ++ List.take n (c :: cs)) hnw]
                  simpa [List.append_assoc] using htcw
                have := (tailCommaWs_append_iff (pre ++ [',', ' ']) hnw).mpr h4
                simpa [List.append_assoc] using this
            have := ih (List.drop n (c :: cs)) (pre ++ [',', ' ']) hgrest u₃ v h3 hmv
            simpa [List.append_assoc] using this

/-! ### Good for the full substitution chain -/

/-- The after-comma invariant with no ambient prefix. -/
def Good (tok : Token) (l : List Char) : Prop := GoodFrom [] tok l

lemma subPass_good_self {tok : Token} (hg : tokGood tok) (s : List Char) :
    Good tok (subPass tok s) :=
  subF_good_self hg s.length s [] (le_refl _)

lemma subPass_good_preserve {t : Token} (hgt : tokGood t) (tok : Token)
    {s : List Char} (h : Good t s) : Good t (subPass tok s) :=
  subF_good_preserve hgt tok s.length s [] h

lemma substAll_good (s : List Char) : ∀ t ∈ toks, Good t (substAll s) := by
  have hf : tokGood tokFeat := by decide
  have hft : tokGood tokFt := by decide
  have hfg : tokGood tokFeaturing := by decide
  have hamp : tokGood tokAmp := by decide
  have hand : tokGood tokAnd := by decide
  intro t ht
  simp only [toks, List.mem_cons, List.mem_singleton, List.not_mem_nil, or_false] at ht
  unfold substAll
  rcases ht with rfl | rfl | rfl | rfl | rfl
  · exact subPass_good_preserve hf _ (subPass_good_preserve hf _
      (subPass_good_preserve hf _ (subPass_good_preserve hf _
        (subPass_good_self hf _))))
  · exact subPass_good_preserve hft _ (subPass_good_preserve hft _
      (subPass_good_preserve hft _ (subPass_good_self hft _)))
  · exact subPass_good_preserve hfg _ (subPass_good_preserve hfg _
      (subPass_good_self hfg _))
  · exact subPass_good_preserve hamp _ (subPass_good_self hamp _)
  · exact subPass_good_self hand _

/-! ### Strings with no match are fixed points of the passes -/

lemma hasMatchB_false_iff {tok : Token} : ∀ {l : List Char},
    hasMatchB tok l = false ↔
      ∀ u v : List Char, l = u ++ v → matchAt tok v = none := by
  intro l
  induction l with
  | nil =>
    constructor
    · intro _ u v huv
      have hv : v = [] := by
        have := congrArg List.length huv
        simp only [List.length_nil, List.length_append] at this
        exact List.eq_nil_of_length_eq_zero (by omega)
      rw [hv]
      exact matchAt_nil
    · intro _; rfl
  | cons c cs ih =>
    constructor
    · intro h u v huv
      simp only [hasMatchB, Bool.or_eq_false_iff] at h
      obtain ⟨h1, h2⟩ := h
      cases u with
      | nil =>
        rw [List.nil_append] at huv
        subst huv
        cases hmm : matchAt tok (c :: cs) with
        | none => rfl
        | some n => rw [hmm] at h1; exact absurd h1 (by simp)
      | cons c0 u' =>
        rw [List.cons_append] at huv
        injection huv with hc0 hrest
        exact (ih.mp h2) u' v hrest
    · intro h
      simp only [hasMatchB, Bool.or_eq_false_iff]
      constructor
      · have := h [] (c :: cs) rfl
        simp [this]
      · exact ih.mpr (fun u v huv => h (c :: u) v (by rw [huv, List.cons_append]))

lemma hasMatchB_suffix_false {tok : Token} {u v l : List Char}
    (hl : l = u ++ v) (h : hasMatchB tok l = false) : matchAt tok v = none :=
  hasMatchB_false_iff.mp h u v hl

lemma subF_id {tok : Token} : ∀ {f : Nat} {s : List Char},
    (∀ u v : List Char, s = u ++ v → matchAt tok v = none) → subF tok f s = s := by
  intro f
  induction f with
  | zero => intro s _; cases s <;> rfl
  | succ f ih =>
    intro s h
    cases s with
    | nil => rfl
    | cons c cs =>
      rw [subF_succ_cons]
      have h0 : matchAt tok (c :: cs) = none := h [] (c :: cs) rfl
      rw [h0]
      dsimp only []
      rw [ih (fun u v huv => h (c :: u) v (by rw [huv, List.cons_append]))]

lemma subPass_id {tok : Token} {s : List Char} (h : hasMatchB tok s = false) :
    subPass tok s = s :=
  subF_id (hasMatchB_false_iff.mp h)

lemma substAll_id {s : List Char} (h : ∀ t ∈ toks, hasMatchB t s = false) :
    substAll s = s := by
  have e1 : subPass tokFeat s = s := subPass_id (h tokFeat (by simp [toks]))
  have e2 : subPass tokFt s = s := subPass_id (h tokFt (by simp [toks]))
  have e3 : subPass tokFeaturing s = s := subPass_id (h tokFeaturing (by simp [toks]))
  have e4 : subPass tokAmp s = s := subPass_id (h tokAmp (by simp [toks]))
  have e5 : subPass tokAnd s = s := subPass_id (h tokAnd (by simp [toks]))
  unfold substAll
  rw [e1, e2, e3, e1, e2, e3, e4, e5]

/-! ### splitComma structure -/

lemma splitComma_cons_eq (c : Char) (rest : List Char) :
    splitComma (c :: rest) =
      if c = ',' then [] :: splitComma rest
      else
        match splitComma rest with
        | [] => [[c]]
        | p :: ps => (c :: p) :: ps := rfl

lemma splitComma_ne_nil : ∀ (l : List Char), splitComma l ≠ [] := by
  intro l
  cases l with
  | nil => simp [splitComma]
  | cons c rest =>
    rw [splitComma_cons_eq]
    by_cases hc : c = ','
    · rw [if_pos hc]; simp
    · rw [if_neg hc]
      cases splitComma rest <;> simp

/-- Head and tail structure of the comma split: the head piece is a
comma-free prefix; every tail piece is comma-free and preceded by a
comma. -/
lemma splitComma_shape : ∀ l : List Char, ∃ p ps B,
    splitComma l = p :: ps ∧ l = p ++ B ∧ ',' ∉ p ∧
    ∀ q ∈ ps, ',' ∉ q ∧ ∃ A' B', l = A' ++ ',' :: (q ++ B') := by
  intro l
  induction l with
  | nil =>
    exact ⟨[], [], [], rfl, rfl, by simp, by simp⟩
  | cons c rest ih =>
    rcases ih with ⟨p₀, ps₀, B₀, hsc, hB₀, hnc₀, htail₀⟩
    by_cases hc : c = ','
    · subst hc
      refine ⟨[], splitComma rest, ',' :: rest, ?_, by simp, by simp, ?_⟩
      · rw [splitComma_cons_eq, if_pos rfl]
      · intro q hq
        rw [hsc] at hq
        rcases List.mem_cons.mp hq with rfl | hq'
        · exact ⟨hnc₀, [], B₀, by rw [hB₀]; simp⟩
        · rcases htail₀ q hq' with ⟨hq1, A', B', hq2⟩
          exact ⟨hq1, ',' :: A', B', by rw [hq2, List.cons_append]⟩
    · refine ⟨c :: p₀, ps₀, B₀, ?_, ?_, ?_, ?_⟩
      · rw [splitComma_cons_eq, if_neg hc, hsc]
      · rw [List.cons_append, ← hB₀]
      · intro hmem
        rcases List.mem_cons.mp hmem with h1 | h2
        · exact hc h1.symm
        · exact hnc₀ h2
      · intro q hq
        rcases htail₀ q hq with ⟨hq1, A', B', hq2⟩
        exact ⟨hq1, c :: A', B', by rw [hq2, List.cons_append]⟩

/-- A comma-free string splits into itself alone. -/
lemma splitComma_eq_single : ∀ {l : List Char}, ',' ∉ l → splitComma l = [l] := by
  intro l
  induction l with
  | nil => intro _; rfl
  | cons c rest ih =>
    intro h
    have hc : c ≠ ',' := fun hcc => h (hcc ▸ List.mem_cons_self _ _)
    have hrest : ',' ∉ rest := fun hr => h (List.mem_cons_of_mem _ hr)
    rw [splitComma_cons_eq, if_neg hc, ih hrest]


/-! ### pyStrip structure -/

lemma dropWhile_cons_not {p : Char → Bool} : ∀ {l : List Char} {c : Char} {t : List Char},
    l.dropWhile p = c :: t → p c = false := by
  intro l
  induction l with
  | nil => intro c t h; simp at h
  | cons a l ih =>
    intro c t h
    rw [List.dropWhile_cons] at h
    by_cases hp : p a
    · rw [if_pos hp] at h; exact ih h
    · rw [if_neg hp] at h
      injection h with h1 _
      subst h1
      simpa using hp

lemma dropTrailWs_prefix (l : List Char) : dropTrailWs l <+: l := by
  have h := List.reverse_prefix.mpr (List.dropWhile_suffix (l := l.reverse) pyIsSpace)
  rwa [List.reverse_reverse] at h

lemma pyStrip_decomp (p : List Char) : ∃ w1 w2, p = w1 ++ pyStrip p ++ w2 ∧
    (∀ c ∈ w1, pyIsSpace c = true) ∧ (∀ c ∈ w2, pyIsSpace c = true) := by
  unfold pyStrip dropTrailWs
  set r := p.dropWhile pyIsSpace with hr
  refine ⟨p.takeWhile pyIsSpace, (r.reverse.takeWhile pyIsSpace).reverse, ?_, ?_, ?_⟩
  · conv_lhs => rw [← List.takeWhile_append_dropWhile (p := pyIsSpace) (l := p)]
    rw [← hr, List.append_assoc]
    congr 1
    have h2 : (r.reverse.takeWhile pyIsSpace ++ r.reverse.dropWhile pyIsSpace).reverse = r := by
      rw [List.takeWhile_append_dropWhile, List.reverse_reverse]
    conv_lhs => rw [← h2]
    rw [List.reverse_append]
  · exact fun c hc => List.mem_takeWhile_imp hc
  · intro c hc
    rw [List.mem_reverse] at hc
    exact List.mem_takeWhile_imp hc

lemma pyStrip_subset {p : List Char} : pyStrip p ⊆ p := by
  rcases pyStrip_decomp p with ⟨w1, w2, hd, _, _⟩
  intro c hc
  rw [hd]
  simp only [List.append_assoc, List.mem_append]
  exact Or.inr (Or.inl hc)

lemma pyStrip_head {p : List Char} {c : Char} {t : List Char}
    (h : pyStrip p = c :: t) : pyIsSpace c = false := by
  have hpre : (c :: t) <+: p.dropWhile pyIsSpace := by
    rw [← h]
    exact dropTrailWs_prefix _
  rcases hpre with ⟨rest, hrest⟩
  rw [List.cons_append] at hrest
  exact dropWhile_cons_not hrest.symm

lemma pyStrip_last {p : List Char} {t : List Char} {c : Char}
    (h : pyStrip p = t ++ [c]) : pyIsSpace c = false := by
  have h2 := congrArg List.reverse h
  unfold pyStrip dropTrailWs at h2
  rw [List.reverse_reverse] at h2
  have h3 : (p.dropWhile pyIsSpace).reverse.dropWhile pyIsSpace = c :: t.reverse := by
    rw [h2]
    simp
  exact dropWhile_cons_not h3

lemma pyStrip_eq_self {l : List Char}
    (hh : ∀ c t, l = c :: t → pyIsSpace c = false)
    (hl : ∀ t c, l = t ++ [c] → pyIsSpace c = false) : pyStrip l = l := by
  cases hcase : l with
  | nil => rfl
  | cons c t =>
    unfold pyStrip
    have h1 : (c :: t).dropWhile pyIsSpace = c :: t := by
      rw [List.dropWhile_cons, if_neg]
      simp [hh c t hcase]
    rw [h1]
    unfold dropTrailWs
    rcases List.eq_nil_or_concat (c :: t) with h | ⟨L, b, hL⟩
    · simp at h
    · rw [List.concat_eq_append] at hL
      have hb : pyIsSpace b = false := hl L b (hcase ▸ hL)
      rw [hL]
      rw [show (L ++ [b]).reverse = b :: L.reverse by simp]
      rw [List.dropWhile_cons, if_neg (by simp [hb])]
      simp

lemma pyStrip_idem (p : List Char) : pyStrip (pyStrip p) = pyStrip p :=
  pyStrip_eq_self (fun _ _ h => pyStrip_head h) (fun _ _ h => pyStrip_last h)

/-! ### Pieces of the parse result are inert -/

lemma hasMatchB_true_iff {tok : Token} : ∀ {l : List Char},
    hasMatchB tok l = true ↔
      ∃ u v : List Char, l = u ++ v ∧ matchAt tok v ≠ none := by
  intro l
  induction l with
  | nil =>
    constructor
    · intro h; simp [hasMatchB] at h
    · rintro ⟨u, v, huv, hm⟩
      exfalso
      have hv : v = [] := by
        have := congrArg List.length huv
        simp only [List.length_nil, List.length_append] at this
        exact List.eq_nil_of_length_eq_zero (by omega)
      rw [hv] at hm
      exact hm matchAt_nil
  | cons c cs ih =>
    constructor
    · intro h
      simp only [hasMatchB, Bool.or_eq_true] at h
      rcases h with h1 | h2
      · exact ⟨[], c :: cs, rfl, by simpa [Option.isSome_iff_ne_none] using h1⟩
      · rcases ih.mp h2 with ⟨u, v, huv, hm⟩
        exact ⟨c :: u, v, by rw [huv, List.cons_append], hm⟩
    · rintro ⟨u, v, huv, hm⟩
      simp only [hasMatchB, Bool.or_eq_true]
      cases u with
      | nil =>
        rw [List.nil_append] at huv
        subst huv
        exact Or.inl (by simpa [Option.isSome_iff_ne_none] using hm)
      | cons c0 u' =>
        rw [List.cons_append] at huv
        injection huv with hc0 hrest
        exact Or.inr (ih.mpr ⟨u', v, hrest, hm⟩)

lemma matchAt_append_right {tok : Token} (hg : tokGood tok)
    {v : List Char} {n : Nat} (h : matchAt tok v = some n) (X : List Char) :
    matchAt tok (v ++ X) ≠ none := by
  refine matchAt_some_of_prefix hg h ?_
  have hn : n ≤ v.length := matchAt_le_length h
  rw [List.take_append_eq_append_take]
  have : n - v.length = 0 := by omega
  rw [this]
  simp

lemma not_tailCommaWs {X u : List Char}
    (hex : ∃ c ∈ u, pyIsSpace c = false) (hnc : ',' ∉ u) :
    ¬ tailCommaWs (X ++ u) := by
  intro h
  rw [tailCommaWs_append_iff X hex] at h
  unfold tailCommaWs at h
  cases hD : u.reverse.dropWhile pyIsSpace with
  | nil =>
    rw [List.dropWhile_eq_nil_iff] at hD
    rcases hex with ⟨c, hc, hws⟩
    have := hD c (List.mem_reverse.mpr hc)
    rw [hws] at this
    exact Bool.false_ne_true this
  | cons c0 t0 =>
    rw [hD] at h
    have hc0 : c0 ∈ u := by
      have : c0 ∈ u.reverse.dropWhile pyIsSpace := by rw [hD]; simp
      exact List.mem_reverse.mp ((List.dropWhile_sublist _).subset this)
    rw [h] at hc0
    exact hnc hc0

lemma splitComma_no_comma {l p : List Char} (hp : p ∈ splitComma l) : ',' ∉ p := by
  rcases splitComma_shape l with ⟨p₀, ps₀, B₀, hsc, _, hnc, htail⟩
  rw [hsc] at hp
  rcases List.mem_cons.mp hp with rfl | hp'
  · exact hnc
  · exact (htail p hp').1

lemma splitComma_decompose {l p : List Char} (hp : p ∈ splitComma l) :
    (∃ B, l = p ++ B) ∨ (∃ A B, l = A ++ ',' :: (p ++ B)) := by
  rcases splitComma_shape l with ⟨p₀, ps₀, B₀, hsc, hB, _, htail⟩
  rw [hsc] at hp
  rcases List.mem_cons.mp hp with rfl | hp'
  · exact Or.inl ⟨B₀, hB⟩
  · rcases (htail p hp').2 with ⟨A, B, hAB⟩
    exact Or.inr ⟨A, B, hAB⟩

/-- Every piece returned by parse_artists is nonempty, stripped,
comma-free, and contains no occurrence of any separator token. -/
lemma parseArtists_mem {s q : List Char} (hq : q ∈ parseArtists s) :
    q ≠ [] ∧ pyStrip q = q ∧ ',' ∉ q ∧ ∀ t ∈ toks, hasMatchB t q = false := by
  unfold parseArtists at hq
  by_cases hs : s.isEmpty
  · rw [if_pos hs] at hq; simp at hq
  · rw [if_neg hs] at hq
    rw [List.mem_filter] at hq
    obtain ⟨hmem, hne⟩ := hq
    have hqne : q ≠ [] := by
      intro hq0
      rw [hq0] at hne
      simp at hne
    rcases List.mem_map.mp hmem with ⟨p, hp, hpq⟩
    have hstrip : pyStrip q = q := by rw [← hpq]; exact pyStrip_idem p
    have hsubp : q ⊆ p := by rw [← hpq]; exact pyStrip_subset
    have hnc : ',' ∉ q := fun hcq => splitComma_no_comma hp (hsubp hcq)
    refine ⟨hqne, hstrip, hnc, ?_⟩
    intro t ht
    by_contra hmt
    have hmt' : hasMatchB t q = true := by
      cases hval : hasMatchB t q
      · exact absurd hval hmt
      · rfl
    rcases hasMatchB_true_iff.mp hmt' with ⟨u, v, huv, hmv⟩
    obtain ⟨n, hn⟩ : ∃ n, matchAt t v = some n := by
      cases hval : matchAt t v
      · exact absurd hval hmv
      · exact ⟨_, rfl⟩
    have hg : tokGood t := toks_good t ht
    have hgood : Good t (substAll s) := substAll_good s t ht
    rcases pyStrip_decomp p with ⟨w1, w2, hpw, hw1, _⟩
    rw [hpq] at hpw
    -- the head of u (or of v) is the head of q, which is not whitespace
    have hqhead : ∀ c t0, q = c :: t0 → pyIsSpace c = false := by
      intro c t0 hct
      exact pyStrip_head (by rw [hstrip]; exact hct)
    -- case u empty: the match would start at a non-whitespace character
    cases u with
    | nil =>
      rw [List.nil_append] at huv
      subst huv
      cases hq0 : q with
      | nil => exact hqne hq0
      | cons c0 t0 =>
        rw [hq0] at hn
        rw [matchAt_none_of_not_ws (hqhead c0 t0 hq0)] at hn
        exact absurd hn (by simp)
    | cons c0 u' =>
      have hc0 : pyIsSpace c0 = false := hqhead c0 (u' ++ v) (by rw [huv, List.cons_append])
      have hexu : ∃ c ∈ c0 :: u', pyIsSpace c = false := ⟨c0, by simp, hc0⟩
      have hncu : ',' ∉ c0 :: u' := by
        intro hcc
        apply hnc
        rw [huv]
        exact List.mem_append.mpr (Or.inl hcc)
      -- build the ambient decomposition of the full substituted string
      have hmv' : matchAt t (v ++ (w2 ++ [])) ≠ none := matchAt_append_right hg hn _
      rcases splitComma_decompose hp with ⟨B, hB⟩ | ⟨A, B, hAB⟩
      · have hout : substAll s = (w1 ++ (c0 :: u')) ++ (v ++ (w2 ++ B)) := by
          rw [hB, hpw, huv]
          simp [List.append_assoc]
        have htcw := hgood _ _ hout (matchAt_append_right hg hn _)
        rw [List.nil_append] at htcw
        exact not_tailCommaWs hexu hncu htcw
      · have hout : substAll s =
            ((A ++ ',' :: w1) ++ (c0 :: u')) ++ (v ++ (w2 ++ B)) := by
          rw [hAB, hpw, huv]
          simp [List.append_assoc]
        have htcw := hgood _ _ hout (matchAt_append_right hg hn _)
        rw [List.nil_append] at htcw
        refine not_tailCommaWs (X := A ++ ',' :: w1) hexu hncu ?_
        simpa [List.append_assoc] using htcw


/-- An inert string (nonempty, stripped, comma-free, no token match)
parses to itself alone. -/
lemma parseArtists_inert {q : List Char} (hne : q ≠ []) (hstrip : pyStrip q = q)
    (hnc : ',' ∉ q) (hnom : ∀ t ∈ toks, hasMatchB t q = false) :
    parseArtists q = [q] := by
  unfold parseArtists
  rw [if_neg (by simpa [List.isEmpty_iff] using hne)]
  rw [substAll_id hnom, splitComma_eq_single hnc]
  simp only [List.map_cons, List.map_nil, hstrip]
  simp [List.filter, List.isEmpty_eq_false.mpr hne]

/-- Every piece of a parse result parses to itself alone. -/
lemma parseArtists_piece_stable {s q : List Char} (hq : q ∈ parseArtists s) :
    parseArtists q = [q] := by
  rcases parseArtists_mem hq with ⟨h1, h2, h3, h4⟩
  exact parseArtists_inert h1 h2 h3 h4

/-! ### joinSemi structure -/

lemma joinSemi_cons_cons (p q : List Char) (ps : List (List Char)) :
    joinSemi (p :: q :: ps) = p ++ ';' :: joinSemi (q :: ps) := rfl

lemma sepCharB_comma_false {tok : Token} (hg : tokGood tok) :
    sepCharB tok ',' = false := by
  cases hval : sepCharB tok ','
  · rfl
  · exact absurd rfl (sepCharB_props hg hval).2.1

lemma sepCharB_semi_false {tok : Token} (hg : tokGood tok) :
    sepCharB tok ';' = false := by
  cases hval : sepCharB tok ';'
  · rfl
  · exact absurd rfl (sepCharB_props hg hval).2.2

/-- A match cannot reach past a character that is neither whitespace nor
a token character. -/
lemma matchAt_mid_bound {tok : Token} {a rest : List Char} {ch : Char} {n : Nat}
    (hch1 : pyIsSpace ch = false) (hch2 : sepCharB tok ch = false)
    (h : matchAt tok (a ++ ch :: rest) = some n) : n ≤ a.length := by
  by_contra hgt
  have hmem : ch ∈ (a ++ ch :: rest).take n := by
    have heq : (a ++ ch :: rest).take n = a ++ (ch :: rest).take (n - a.length) := by
      rw [List.take_append_eq_append_take]
      rw [List.take_of_length_le (by omega)]
    rw [heq]
    refine List.mem_append.mpr (Or.inr ?_)
    cases hnn : n - a.length with
    | zero => exact absurd hnn (by omega)
    | succ m => rw [List.take_succ_cons]; exact List.mem_cons_self _ _
  rcases matchAt_chars h ch hmem with hws | hsep
  · rw [hch1] at hws; exact Bool.false_ne_true hws
  · rw [hch2] at hsep; exact Bool.false_ne_true hsep

lemma hasMatchB_append_semi {t : Token} (hg : tokGood t) {p r : List Char}
    (hp : hasMatchB t p = false) (hr : hasMatchB t r = false) :
    hasMatchB t (p ++ ';' :: r) = false := by
  rw [hasMatchB_false_iff]
  intro u v huv
  rcases List.append_eq_append_iff.mp huv with ⟨a', hu, hbr⟩ | ⟨c', hp2, hv⟩
  · cases a' with
    | nil =>
      rw [List.nil_append] at hbr
      rw [← hbr]
      exact matchAt_none_of_not_ws (by decide)
    | cons x a'' =>
      rw [List.cons_append] at hbr
      injection hbr with hx hrv
      exact hasMatchB_suffix_false hrv hr
  · cases hval : matchAt t v with
    | none => rfl
    | some n =>
      exfalso
      have hvn : matchAt t (c' ++ ';' :: r) = some n := by rw [← hv]; exact hval
      have hbound : n ≤ c'.length :=
        matchAt_mid_bound (by decide) (sepCharB_semi_false hg) hvn
      have hcm : matchAt t c' ≠ none := by
        refine matchAt_some_of_prefix hg hvn ?_
        rw [List.take_append_eq_append_take]
        have : n - c'.length = 0 := by omega
        rw [this]
        simp
      exact hcm (hasMatchB_suffix_false hp2 hp)

lemma joinSemi_no_match {t : Token} (hg : tokGood t) : ∀ {ps : List (List Char)},
    (∀ p ∈ ps, hasMatchB t p = false) → hasMatchB t (joinSemi ps) = false := by
  intro ps
  induction ps with
  | nil => intro _; rfl
  | cons p ps ih =>
    intro h
    cases ps with
    | nil => exact h p (by simp)
    | cons q ps' =>
      rw [joinSemi_cons_cons]
      exact hasMatchB_append_semi hg (h p (by simp))
        (ih (fun r hr => h r (by simp [hr])))

lemma joinSemi_no_comma : ∀ {ps : List (List Char)},
    (∀ p ∈ ps, ',' ∉ p) → ',' ∉ joinSemi ps := by
  intro ps
  induction ps with
  | nil => intro _; simp [joinSemi]
  | cons p ps ih =>
    intro h
    cases ps with
    | nil => exact h p (by simp)
    | cons q ps' =>
      rw [joinSemi_cons_cons]
      intro hmem
      rcases List.mem_append.mp hmem with h1 | h2
      · exact h p (by simp) h1
      · rcases List.mem_cons.mp h2 with h3 | h4
        · exact absurd h3.symm (by decide)
        · exact ih (fun r hr => h r (by simp [hr])) h4

lemma joinSemi_head? {p : List Char} {ps : List (List Char)} (hne : p ≠ []) :
    (joinSemi (p :: ps)).head? = p.head? := by
  cases ps with
  | nil => rfl
  | cons q ps' =>
    rw [joinSemi_cons_cons]
    exact List.head?_append_of_ne_nil _ hne

lemma joinSemi_ne_nil {p : List Char} {ps : List (List Char)} (hp : p ≠ []) :
    joinSemi (p :: ps) ≠ [] := by
  intro h0
  have hh := @joinSemi_head? p ps hp
  rw [h0] at hh
  cases hpc : p with
  | nil => exact hp hpc
  | cons c t =>
    rw [hpc] at hh
    simp at hh

lemma joinSemi_getLast? : ∀ {ps : List (List Char)} {q : List Char},
    (∀ p ∈ ps, p ≠ []) → ps.getLast? = some q →
    (joinSemi ps).getLast? = q.getLast? := by
  intro ps
  induction ps with
  | nil => intro q _ h; simp at h
  | cons p ps ih =>
    intro q hall hlast
    cases ps with
    | nil =>
      simp only [List.getLast?_singleton, Option.some.injEq] at hlast
      subst hlast
      rfl
    | cons r ps' =>
      rw [List.getLast?_cons_cons] at hlast
      rw [joinSemi_cons_cons, List.getLast?_append]
      have hr : r ≠ [] := hall r (by simp)
      have hjne : joinSemi (r :: ps') ≠ [] := joinSemi_ne_nil hr
      have h2 : (';' :: joinSemi (r :: ps')).getLast? = (joinSemi (r :: ps')).getLast? := by
        cases hJ : joinSemi (r :: ps') with
        | nil => exact absurd hJ hjne
        | cons a b => rw [List.getLast?_cons_cons]
      rw [h2, ih (fun x hx => hall x (by simp [hx])) hlast]
      have hq : q ≠ [] := by
        have hqmem : q ∈ r :: ps' := by
          rcases List.getLast?_eq_some_iff.mp hlast with ⟨ys, hys⟩
          rw [hys]; simp
        exact hall q (by simp [hqmem])
      rcases List.eq_nil_or_concat q with h0 | ⟨L, b, hL⟩
      · exact absurd h0 hq
      · rw [List.concat_eq_append] at hL
        rw [hL, List.getLast?_concat]
        rfl

lemma joinSemi_stripped {ps : List (List Char)}
    (hne : ∀ p ∈ ps, p ≠ []) (hstr : ∀ p ∈ ps, pyStrip p = p) :
    pyStrip (joinSemi ps) = joinSemi ps := by
  cases ps with
  | nil => rfl
  | cons p ps' =>
    apply pyStrip_eq_self
    · intro c t hct
      have hp := hne p (by simp)
      have hh := @joinSemi_head? p ps' hp
      rw [hct] at hh
      cases hpcase : p with
      | nil => exact absurd hpcase hp
      | cons c0 t0 =>
        rw [hpcase] at hh
        simp only [List.head?_cons, Option.some.injEq] at hh
        subst hh
        exact pyStrip_head (p := p) (by rw [hstr p (by simp), hpcase])
    · intro tl c hct
      have hpne : (p :: ps') ≠ ([] : List (List Char)) := by simp
      have hlast := List.getLast?_eq_getLast (p :: ps') hpne
      set q := (p :: ps').getLast hpne with hqdef
      have hqmem : q ∈ p :: ps' := List.getLast_mem hpne
      have hgl := joinSemi_getLast? hne hlast
      rw [hct, List.getLast?_concat] at hgl
      rcases List.getLast?_eq_some_iff.mp hgl.symm with ⟨ys, hys⟩
      exact pyStrip_last (p := q) (by rw [hstr q hqmem, hys])

/-! ### The parse and join level idempotence -/

/-- The semicolon join of a parse result is inert: parsing it again gives
the single-element list holding it (or the empty list when empty). -/
lemma parse_join_parse (s : List Char) :
    (parseArtists s = [] ∧ joinSemi (parseArtists s) = []) ∨
    parseArtists (joinSemi (parseArtists s)) = [joinSemi (parseArtists s)] := by
  cases hps : parseArtists s with
  | nil => exact Or.inl ⟨rfl, rfl⟩
  | cons p ps' =>
    right
    have hmem : ∀ q ∈ p :: ps', q ∈ parseArtists s := by
      intro q hq; rw [hps]; exact hq
    have hprops : ∀ q ∈ p :: ps',
        q ≠ [] ∧ pyStrip q = q ∧ ',' ∉ q ∧ ∀ t ∈ toks, hasMatchB t q = false :=
      fun q hq => parseArtists_mem (hmem q hq)
    have hne : ∀ q ∈ p :: ps', q ≠ [] := fun q hq => (hprops q hq).1
    have hstr : ∀ q ∈ p :: ps', pyStrip q = q := fun q hq => (hprops q hq).2.1
    have hnc : ∀ q ∈ p :: ps', ',' ∉ q := fun q hq => (hprops q hq).2.2.1
    refine parseArtists_inert (joinSemi_ne_nil (hne p (by simp)))
      (joinSemi_stripped hne hstr) (joinSemi_no_comma hnc) ?_
    intro t ht
    exact joinSemi_no_match (toks_good t ht)
      (fun q hq => (hprops q hq).2.2.2 t ht)

/-- String-level idempotence of normalize-then-join. -/
lemma join_parse_idem (s : List Char) :
    joinSemi (parseArtists (joinSemi (parseArtists s))) = joinSemi (parseArtists s) := by
  rcases parse_join_parse s with ⟨h1, h2⟩ | h
  · rw [h2]
    rfl
  · rw [h]
    rfl

/-- The join of a parse result is already stripped. -/
lemma join_parse_stripped (s : List Char) :
    pyStrip (joinSemi (parseArtists s)) = joinSemi (parseArtists s) := by
  cases hps : parseArtists s with
  | nil => rfl
  | cons p ps' =>
    have hprops : ∀ q ∈ p :: ps',
        q ≠ [] ∧ pyStrip q = q ∧ ',' ∉ q ∧ ∀ t ∈ toks, hasMatchB t q = false := by
      intro q hq
      refine parseArtists_mem (s := s) ?_
      rw [hps]; exact hq
    exact joinSemi_stripped (fun q hq => (hprops q hq).1) (fun q hq => (hprops q hq).2.1)


/-! ### The update engine of format-music-file-metadata.py -/

/-- Write convention of an audio container: FLAC and Ogg Vorbis store a
native list of values (mutagen list assignment, lines 172-175 and
216-219); M4A, MP3, AIFF and WAV store one semicolon-joined string. -/
inductive Conv
  | native
  | delim
deriving DecidableEq, Repr

/-- A tag field as stored by mutagen: a list of stored values.  An
absent field is the empty list; delimited-string containers hold a
single value. -/
abbrev Field := List (List Char)

/-- get_current_artist / get_current_album_artist (lines 106-161): read
the first stored value of the field, none when the field is absent. -/
def readField (f : Field) : Option (List Char) := f.head?

/-- The would-change test of update_music_file (lines 269-274 and
296-301).  FLAC and Ogg Vorbis: the parsed list is nonempty and has more
than one entry or its first entry differs from the current value; other
containers: the semicolon join differs from the current value. -/
def wouldChange (conv : Conv) (cur : List Char) : Bool :=
  match conv with
  | .native =>
    let artists := parseArtists cur
    if artists.isEmpty then false
    else decide (1 < artists.length) || decide (cur ≠ artists.headD [])
  | .delim => decide (joinSemi (parseArtists cur) ≠ cur)

/-- update_artist / update_album_artist (lines 164-249): the field value
written back. -/
def writeVal (conv : Conv) (artists : List (List Char)) : Field :=
  match conv with
  | .native => artists
  | .delim => [joinSemi artists]

/-- The artist and album-artist fields of one music file. -/
structure Tags where
  artist : Field
  albumArtist : Field
deriving DecidableEq, Repr

/-- Observable events of one update_music_file run, in order: the calls
to update_artist / update_album_artist with their outcome, the backup
copy, and audio.save(). -/
inductive Ev
  | writeArtist (ok : Bool)
  | writeAlbum (ok : Bool)
  | backup
  | save
deriving DecidableEq, Repr

/-- The (success, changed, message) triple returned by update_music_file
and update_nfo_file. -/
structure Res where
  success : Bool
  changed : Bool
  msg : String
deriving DecidableEq, Repr

/-- World state after a run: on-disk tags, the backup files created
(path and byte-for-byte contents), the proposed artist lists printed,
and the event trace. -/
structure World where
  disk : Tags
  backups : List (String × Tags)
  printed : List (List (List Char))
  events : List Ev
deriving DecidableEq, Repr

/-- One field phase of update_music_file (lines 266-290 artist,
293-317 album artist): given the current value read before any update,
decide, print the proposal, and in a non-dry run attempt the in-memory
write.  Returns none when the mutagen update call fails (the ok flag);
otherwise the new field value (when one was written), the changed flag,
the printed proposals and the events. -/
def phaseStep (conv : Conv) (dryRun ok : Bool) (mkEv : Bool → Ev)
    (cur : List Char) :
    Option (Option Field × Bool × List (List (List Char)) × List Ev) :=
  if cur.isEmpty then some (none, false, [], [])
  else if wouldChange conv cur then
    if dryRun then some (none, true, [parseArtists cur], [])
    else if ok then
      some (some (writeVal conv (parseArtists cur)), true,
        [parseArtists cur], [mkEv true])
    else none
  else some (none, false, [], [])

/-- update_music_file (lines 252-333).  okA / okAA model whether the two
mutagen field updates succeed; a failed field update aborts the file
before any disk write.  The backup copy is taken, then audio.save()
writes the in-memory tags, only after every field update succeeded. -/
def updateMusicFile (conv : Conv) (dryRun bkp okA okAA : Bool)
    (path ts : String) (init : Tags) : Res × World :=
  let curA := (readField init.artist).getD []
  let curAA := (readField init.albumArtist).getD []
  match phaseStep conv dryRun okA Ev.writeArtist curA with
  | none =>
    (⟨false, false, "Failed to update artist"⟩,
     ⟨init, [], [parseArtists curA], [Ev.writeArtist false]⟩)
  | some (fA, chA, prA, evA) =>
    let mem1 : Tags := match fA with
      | some f => { init with artist := f }
      | none => init
    match phaseStep conv dryRun okAA Ev.writeAlbum curAA with
    | none =>
      (⟨false, false, "Failed to update album artist"⟩,
       ⟨init, [], prA ++ [parseArtists curAA], evA ++ [Ev.writeAlbum false]⟩)
    | some (fAA, chAA, prAA, evAA) =>
      let mem2 : Tags := match fAA with
        | some f => { mem1 with albumArtist := f }
        | none => mem1
      let changed := chA || chAA
      let printed := prA ++ prAA
      let evs := evA ++ evAA
      if changed then
        if dryRun then
          (⟨true, true, "Would be updated (dry run)"⟩, ⟨init, [], printed, evs⟩)
        else
          (⟨true, true, "Updated successfully"⟩,
           ⟨mem2,
            if bkp then [(path ++ ".backup_" ++ ts, init)] else [],
            printed,
            evs ++ (if bkp then [Ev.backup] else []) ++ [Ev.save]⟩)
      else
        (⟨true, false, "No changes needed"⟩, ⟨init, [], printed, evs⟩)

/-- The new-change decision as the engine makes it for a FLAC or Ogg
Vorbis field: read the first stored value, require it truthy, apply the
would-change test to it alone. -/
def engineWouldChangeNative (fld : Field) : Bool :=
  let cur := (readField fld).getD []
  !cur.isEmpty && wouldChange Conv.native cur

/-- The artist-field content after the FLAC and Ogg Vorbis artist phase
of a non-dry run with a successful write (the some-branch of phaseStep). -/
def flacArtistStep (fld : Field) : Field :=
  match phaseStep Conv.native false true Ev.writeArtist ((readField fld).getD []) with
  | some (some f, _, _, _) => f
  | _ => fld

/-- The comparison the claim describes for the NativeList convention
(following the claim wording, to be compared with the engine): change is
needed iff the parsed ArtistList differs, order-sensitively, from the
full current native multi-value list. -/
def specWouldChangeNative (fld : Field) : Bool :=
  decide (parseArtists ((readField fld).getD []) ≠ fld)

/-- The per-field proposals the Inspect step computes, used to check
what a preview run reports. -/
def musicProposals (conv : Conv) (init : Tags) : List (List (List Char)) :=
  (let cur := (readField init.artist).getD []
   if !cur.isEmpty && wouldChange conv cur then [parseArtists cur] else []) ++
  (let cur := (readField init.albumArtist).getD []
   if !cur.isEmpty && wouldChange conv cur then [parseArtists cur] else [])

/-! ### The sidecar NFO flow of format-music-file-metadata.py -/

/-- The artist and albumartist element texts of one NFO document; the
empty list models an element with absent or empty text (falsy). -/
structure NfoDoc where
  artists : List (List Char)
  albumArtists : List (List Char)
deriving DecidableEq, Repr

/-- The normalized text for one element (lines 63-65): strip, parse,
join with semicolons. -/
def nfoElemNew (t : List Char) : List Char :=
  joinSemi (parseArtists (pyStrip t))

/-- Whether update_nfo_file rewrites one element (line 67): truthy text
whose normalized form differs from the stripped original. -/
def nfoElemChanged (t : List Char) : Bool :=
  !t.isEmpty && decide (nfoElemNew t ≠ pyStrip t)

/-- The element rewrite applied in a non-dry run (line 69). -/
def nfoElemStep (dryRun : Bool) (t : List Char) : List Char :=
  if nfoElemChanged t && !dryRun then nfoElemNew t else t

/-- The in-memory document pass of update_nfo_file (lines 59-85). -/
def nfoProcess (dryRun : Bool) (doc : NfoDoc) : NfoDoc × Bool :=
  (⟨doc.artists.map (nfoElemStep dryRun),
    doc.albumArtists.map (nfoElemStep dryRun)⟩,
   doc.artists.any nfoElemChanged || doc.albumArtists.any nfoElemChanged)

/-- World state of one update_nfo_file run: the on-disk document (none
when the file is not well-formed XML) and the backups created. -/
structure NfoWorld where
  disk : Option NfoDoc
  backups : List (String × Option NfoDoc)
deriving DecidableEq, Repr

/-- update_nfo_file (lines 51-103): a file that fails XML parsing (input
none) is reported as a parse error and left untouched with no backup;
otherwise the document is rewritten, with a backup taken before the
write when a change is pending in a non-dry run. -/
def updateNfoFile (inp : Option NfoDoc) (dryRun bkp : Bool)
    (path ts : String) : Res × NfoWorld :=
  match inp with
  | none => (⟨false, false, "XML parse error"⟩, ⟨none, []⟩)
  | some doc =>
    let pr := nfoProcess dryRun doc
    if pr.2 then
      if dryRun then
        (⟨true, true, "Would be updated (dry run)"⟩, ⟨some doc, []⟩)
      else
        (⟨true, true, "Updated successfully"⟩,
         ⟨some pr.1,
          if bkp then [(path ++ ".backup_" ++ ts, some doc)] else []⟩)
    else
      (⟨true, false, "No changes needed"⟩, ⟨some doc, []⟩)

/-! ### The batch loop of process_directory -/

/-- The summary counters of process_directory (line 371). -/
structure Stats where
  processed : Nat
  updated : Nat
  skipped : Nat
  errors : Nat
deriving DecidableEq, Repr

/-- One loop iteration of the stats bookkeeping (lines 382-389). -/
def statsStep (s : Stats) (r : Res) : Stats :=
  { processed := s.processed + 1
    updated := if r.success && r.changed then s.updated + 1 else s.updated
    skipped := if r.success && !r.changed then s.skipped + 1 else s.skipped
    errors := if !r.success then s.errors + 1 else s.errors }

/-- The NFO loop of process_directory (lines 374-389): every file is
processed independently, results are folded into the counters, and a
failure never stops the loop. -/
def processNfoBatch (dryRun bkp : Bool) (path ts : String)
    (files : List (Option NfoDoc)) : Stats × List (Res × NfoWorld) :=
  let results := files.map (fun inp => updateNfoFile inp dryRun bkp path ts)
  (results.foldl (fun s rw => statsStep s rw.1) ⟨0, 0, 0, 0⟩, results)

/-! ### The genre logic of format-metadata.py -/

/-- A child element of the NFO root in format-metadata.py: tag name and
text, with the empty list modelling absent text. -/
structure Elem where
  tag : List Char
  text : List Char
deriving DecidableEq, Repr

def isGenreTag (e : Elem) : Bool := decide (e.tag = "genre".toList)

/-- The genre-fetch trigger of format-metadata.py update_nfo_file
(lines 143-161), applied to the texts of the existing genre elements:
force, or no genre elements, or all texts falsy or blank, or exactly one
truthy text equal to music after stripping and lower-casing. -/
def needsGenreFetch (force : Bool) (gs : List (List Char)) : Bool :=
  if force then true
  else if gs.isEmpty then true
  else if gs.all (fun g => g.isEmpty || (pyStrip g).isEmpty) then true
  else if gs.length = 1 && !(gs.headD []).isEmpty &&
      decide ((pyStrip (gs.headD [])).map toLowerAscii = "music".toList) then true
  else false

/-- The genre replacement (lines 182-187): remove every existing genre
element, then append one new genre element per fetched genre in order. -/
def applyGenres (root : List Elem) (fetched : List (List Char)) : List Elem :=
  root.filter (fun e => !isGenreTag e) ++
    fetched.map (fun g => ⟨"genre".toList, g⟩)

/-- The genre phase (lines 140-194): fetch only when the trigger holds,
and replace only when the lookup returned a non-empty list. -/
def genrePhase (force : Bool) (root : List Elem)
    (fetched : List (List Char)) : List Elem :=
  let gs := (root.filter isGenreTag).map Elem.text
  if needsGenreFetch force gs then
    if !fetched.isEmpty then applyGenres root fetched else root
  else root

/-- The trigger condition as claim C9 words it: no genre fields, all
existing genre fields empty, or the only existing genre is the literal
placeholder text Music (following the claim wording, to be compared
with needsGenreFetch). -/
def claimGenreTrigger (gs : List (List Char)) : Bool :=
  gs.isEmpty || gs.all (fun g => (pyStrip g).isEmpty) ||
    decide (gs = ["Music".toList])

/-- Splitting as claim C2 words it (following the claim wording, to be
compared with parseArtists): split the input exactly at
whitespace-surrounded occurrences of the join tokens, then trim each
piece and drop empty pieces. -/
def specSplitGo : Nat → List Char → List Char → List (List Char)
  | _, acc, [] => [acc.reverse]
  | 0, acc, l => [acc.reverse ++ l]
  | f + 1, acc, c :: cs =>
    match toks.findSome? (fun t => matchAt t (c :: cs)) with
    | some n => acc.reverse :: specSplitGo f [] (List.drop n (c :: cs))
    | none => specSplitGo f (c :: acc) cs

def specSplit (s : List Char) : List (List Char) :=
  ((specSplitGo s.length [] s).map pyStrip).filter (fun p => !p.isEmpty)


/-! ### phaseStep characterizations -/

lemma phaseStep_false_true (conv : Conv) (mkEv : Bool → Ev) (cur : List Char) :
    phaseStep conv false true mkEv cur =
      if !cur.isEmpty && wouldChange conv cur then
        some (some (writeVal conv (parseArtists cur)), true,
          [parseArtists cur], [mkEv true])
      else some (none, false, [], []) := by
  unfold phaseStep
  by_cases h1 : cur.isEmpty
  · rw [if_pos h1, if_neg (by simp [h1])]
  · rw [if_neg h1]
    by_cases h2 : wouldChange conv cur
    · rw [if_pos h2, if_neg (by simp), if_pos rfl, if_pos (by simp [h1, h2])]
    · rw [if_neg h2, if_neg (by simp [h2])]

lemma phaseStep_dry (conv : Conv) (ok : Bool) (mkEv : Bool → Ev) (cur : List Char) :
    phaseStep conv true ok mkEv cur =
      if !cur.isEmpty && wouldChange conv cur then
        some (none, true, [parseArtists cur], [])
      else some (none, false, [], []) := by
  unfold phaseStep
  by_cases h1 : cur.isEmpty
  · rw [if_pos h1, if_neg (by simp [h1])]
  · rw [if_neg h1]
    by_cases h2 : wouldChange conv cur
    · rw [if_pos h2, if_pos (by simp), if_pos (by simp [h1, h2])]
    · rw [if_neg h2, if_neg (by simp [h2])]

lemma phaseStep_some_events {conv : Conv} {dryRun ok : Bool} {mkEv : Bool → Ev}
    {cur : List Char} {fo : Option Field} {chg : Bool}
    {pr : List (List (List Char))} {ev : List Ev}
    (h : phaseStep conv dryRun ok mkEv cur = some (fo, chg, pr, ev)) :
    ev = [] ∨ ev = [mkEv true] := by
  unfold phaseStep at h
  split at h <;> (try split at h) <;> (try split at h) <;> (try split at h)
  all_goals
    first
    | exact Option.noConfusion h
    | (simp only [Option.some.injEq, Prod.mk.injEq] at h
       rcases h with ⟨h1, h2, h3, h4⟩
       first
       | exact Or.inl h4.symm
       | exact Or.inr h4.symm)

/-- A guard that fails means: either the value is falsy or no change is
needed. -/
lemma guard_false {conv : Conv} {cur : List Char}
    (h : (!cur.isEmpty && wouldChange conv cur) = false) :
    cur = [] ∨ wouldChange conv cur = false := by
  rcases Bool.and_eq_false_iff.mp h with h1 | h2
  · left
    have : cur.isEmpty = true := by
      cases hval : cur.isEmpty
      · rw [hval] at h1; simp at h1
      · rfl
    exact List.isEmpty_iff.mp this
  · exact Or.inr h2

/-! ### Idempotence of the would-change tests after a write -/

lemma wouldChange_delim_join (s : List Char) :
    wouldChange Conv.delim (joinSemi (parseArtists s)) = false := by
  simp [wouldChange, join_parse_idem s]

lemma wouldChange_native_head {s a : List Char} {rest : List (List Char)}
    (h : parseArtists s = a :: rest) : wouldChange Conv.native a = false := by
  have hmem : a ∈ parseArtists s := by rw [h]; exact List.mem_cons_self _ _
  have hstable := parseArtists_piece_stable hmem
  simp [wouldChange, hstable]

/-- The value written back never needs a further change: its read-back
is falsy or passes the would-change test negatively. -/
lemma writeVal_fieldOk (conv : Conv) (cur : List Char) :
    (readField (writeVal conv (parseArtists cur))).getD [] = [] ∨
    wouldChange conv ((readField (writeVal conv (parseArtists cur))).getD []) = false := by
  cases conv with
  | native =>
    cases hp : parseArtists cur with
    | nil => left; simp [writeVal, readField, hp]
    | cons a rest =>
      right
      have hra : (readField (writeVal Conv.native (a :: rest))).getD [] = a := by
        simp [writeVal, readField]
      rw [hra]
      exact wouldChange_native_head hp
  | delim =>
    right
    have : (readField (writeVal Conv.delim (parseArtists cur))).getD []
        = joinSemi (parseArtists cur) := by
      simp [writeVal, readField]
    rw [this]
    exact wouldChange_delim_join cur

/-- A run on a file whose fields are falsy or already normalized reports
no changes and leaves the world untouched. -/
lemma second_run_unchanged {conv : Conv} {bkp okA okAA : Bool}
    {path ts : String} {init : Tags}
    (hA : (readField init.artist).getD [] = [] ∨
      wouldChange conv ((readField init.artist).getD []) = false)
    (hAA : (readField init.albumArtist).getD [] = [] ∨
      wouldChange conv ((readField init.albumArtist).getD []) = false) :
    updateMusicFile conv false bkp okA okAA path ts init
      = (⟨true, false, "No changes needed"⟩, ⟨init, [], [], []⟩) := by
  have stepEq : ∀ (ok : Bool) (mkEv : Bool → Ev) (cur : List Char),
      cur = [] ∨ wouldChange conv cur = false →
      phaseStep conv false ok mkEv cur = some (none, false, [], []) := by
    intro ok mkEv cur hcur
    unfold phaseStep
    by_cases he : cur.isEmpty
    · rw [if_pos he]
    · rw [if_neg he]
      have hwc : wouldChange conv cur = false := by
        rcases hcur with h | h
        · exact absurd (by rw [h]; rfl) he
        · exact h
      rw [if_neg (by simp [hwc])]
  unfold updateMusicFile
  dsimp only []
  rw [stepEq okA Ev.writeArtist _ hA, stepEq okAA Ev.writeAlbum _ hAA]
  rfl

/-- The disk state after a successful non-dry run has both fields falsy
or normalized. -/
lemma run_disk_fieldOk (conv : Conv) (bkp : Bool) (path ts : String) (init : Tags) :
    ((readField (updateMusicFile conv false bkp true true path ts init).2.disk.artist).getD [] = []
      ∨ wouldChange conv ((readField (updateMusicFile conv false bkp true true path ts init).2.disk.artist).getD []) = false)
    ∧ ((readField (updateMusicFile conv false bkp true true path ts init).2.disk.albumArtist).getD [] = []
      ∨ wouldChange conv ((readField (updateMusicFile conv false bkp true true path ts init).2.disk.albumArtist).getD []) = false) := by
  unfold updateMusicFile
  dsimp only []
  rw [phaseStep_false_true, phaseStep_false_true]
  by_cases hgA : (!((readField init.artist).getD []).isEmpty
      && wouldChange conv ((readField init.artist).getD [])) = true
  · rw [if_pos hgA]
    by_cases hgAA : (!((readField init.albumArtist).getD []).isEmpty
        && wouldChange conv ((readField init.albumArtist).getD [])) = true
    · rw [if_pos hgAA]
      dsimp only []
      exact ⟨writeVal_fieldOk conv _, writeVal_fieldOk conv _⟩
    · rw [if_neg (by simpa using hgAA)]
      dsimp only []
      refine ⟨writeVal_fieldOk conv _, ?_⟩
      rcases guard_false (Bool.not_eq_true _ ▸ hgAA : _) with h | h
      · left; exact h
      · right; exact h
  · rw [if_neg (by simpa using hgA)]
    have hAok : (readField init.artist).getD [] = [] ∨
        wouldChange conv ((readField init.artist).getD []) = false :=
      guard_false (by simpa using hgA)
    by_cases hgAA : (!((readField init.albumArtist).getD []).isEmpty
        && wouldChange conv ((readField init.albumArtist).getD [])) = true
    · rw [if_pos hgAA]
      dsimp only []
      refine ⟨?_, writeVal_fieldOk conv _⟩
      rcases hAok with h | h
      · left; exact h
      · right; exact h
    · rw [if_neg (by simpa using hgAA)]
      dsimp only []
      have hAAok : (readField init.albumArtist).getD [] = [] ∨
          wouldChange conv ((readField init.albumArtist).getD []) = false :=
        guard_false (by simpa using hgAA)
      exact ⟨hAok, hAAok⟩

/-! ### NFO element idempotence -/

lemma nfoElemStep_changed_false (t : List Char) :
    nfoElemChanged (nfoElemStep false t) = false := by
  unfold nfoElemStep
  by_cases hch : nfoElemChanged t
  · rw [if_pos (by simp [hch])]
    unfold nfoElemChanged
    by_cases hne : (nfoElemNew t).isEmpty
    · simp [hne]
    · have hstr : pyStrip (nfoElemNew t) = nfoElemNew t :=
        join_parse_stripped (pyStrip t)
      have hidem : nfoElemNew (nfoElemNew t) = nfoElemNew t := by
        unfold nfoElemNew at hstr ⊢
        rw [hstr]
        exact join_parse_idem (pyStrip t)
      rw [hidem, hstr]
      simp
  · rw [if_neg (by simp [hch])]
    exact (Bool.not_eq_true _).mp hch

lemma updateNfoFile_process_false {doc : NfoDoc} {bkp : Bool} {path ts : String}
    (h : (nfoProcess false doc).2 = false) :
    updateNfoFile (some doc) false bkp path ts
      = (⟨true, false, "No changes needed"⟩, ⟨some doc, []⟩) := by
  unfold updateNfoFile
  dsimp only []
  rw [h]
  rfl

lemma updateNfoFile_process_true {doc : NfoDoc} {bkp : Bool} {path ts : String}
    (h : (nfoProcess false doc).2 = true) :
    updateNfoFile (some doc) false bkp path ts
      = (⟨true, true, "Updated successfully"⟩,
         ⟨some (nfoProcess false doc).1,
          if bkp then [(path ++ ".backup_" ++ ts, some doc)] else []⟩) := by
  unfold updateNfoFile
  dsimp only []
  rw [h]
  rfl

lemma nfoProcess_after (doc : NfoDoc) :
    (nfoProcess false ((nfoProcess false doc).1)).2 = false := by
  unfold nfoProcess
  dsimp only []
  rw [List.any_map, List.any_map]
  simp [Function.comp, nfoElemStep_changed_false]

/-- C1: Apply is idempotent.  String level: joining the re-parse of a
joined parse result reproduces it, the delimited-string would-change
test is false on it, and it is already stripped (so the sidecar-XML
re-inspect also reports no change); NativeList level: the would-change
test is false on the first written value; engine level: running
update_music_file (any container convention) or update_nfo_file again on
the file just written reports no changes needed and leaves the bytes
alone. -/
theorem C1_idempotence :
    (∀ s : List Char,
        joinSemi (parseArtists (joinSemi (parseArtists s))) = joinSemi (parseArtists s)
        ∧ wouldChange Conv.delim (joinSemi (parseArtists s)) = false
        ∧ pyStrip (joinSemi (parseArtists s)) = joinSemi (parseArtists s)
        ∧ ∀ a rest, parseArtists s = a :: rest → wouldChange Conv.native a = false)
    ∧ (∀ (conv : Conv) (bkp : Bool) (path ts : String) (init : Tags),
        updateMusicFile conv false bkp true true path ts
            (updateMusicFile conv false bkp true true path ts init).2.disk
          = (⟨true, false, "No changes needed"⟩,
             ⟨(updateMusicFile conv false bkp true true path ts init).2.disk,
              [], [], []⟩))
    ∧ (∀ (doc : NfoDoc) (bkp : Bool) (path ts path2 ts2 : String),
        updateNfoFile (updateNfoFile (some doc) false bkp path ts).2.disk
            false bkp path2 ts2
          = (⟨true, false, "No changes needed"⟩,
             ⟨(updateNfoFile (some doc) false bkp path ts).2.disk, []⟩)) := by
  refine ⟨?_, ?_, ?_⟩
  · intro s
    exact ⟨join_parse_idem s, wouldChange_delim_join s, join_parse_stripped s,
      fun a rest h => wouldChange_native_head h⟩
  · intro conv bkp path ts init
    have hok := run_disk_fieldOk conv bkp path ts init
    exact second_run_unchanged hok.1 hok.2
  · intro doc bkp path ts path2 ts2
    cases hpr : (nfoProcess false doc).2 with
    | false =>
      rw [updateNfoFile_process_false hpr]
      exact updateNfoFile_process_false hpr
    | true =>
      rw [updateNfoFile_process_true hpr]
      exact updateNfoFile_process_false (nfoProcess_after doc)

/-- Witness for C1 at the concrete file of the spec scenario. -/
theorem C1_idempotence_witness :
    parseArtists "A feat. B".toList = ["A".toList, "B".toList]
    ∧ wouldChange Conv.native "A".toList = false
    ∧ joinSemi (parseArtists (joinSemi (parseArtists "A feat. B".toList)))
        = joinSemi (parseArtists "A feat. B".toList) := by
  have h := C1_idempotence.1 "A feat. B".toList
  exact ⟨by decide, h.2.2.2 "A".toList ["B".toList] (by decide), h.1⟩

/-- C2 counterexample: parse_artists also splits at a comma already
present in the input, although no recognized separator token occurs
there, so it does not split exactly at the join-token occurrences. -/
theorem C2_counterexample :
    specSplit "A, B".toList = ["A, B".toList]
    ∧ parseArtists "A, B".toList = ["A".toList, "B".toList]
    ∧ hasMatchB tokFeat "A, B".toList = false
    ∧ hasMatchB tokFt "A, B".toList = false
    ∧ hasMatchB tokFeaturing "A, B".toList = false
    ∧ hasMatchB tokAmp "A, B".toList = false
    ∧ hasMatchB tokAnd "A, B".toList = false := by decide

/-- C2 amended: parse_artists rewrites whitespace-surrounded join
tokens to comma-space (leftmost first, non-overlapping, never rescanning
replacements) and then splits at every comma, including commas already
present in the input; on token-free inputs it is exactly
split-on-comma, trim, drop empties, and the claim examples hold. -/
theorem C2_amended :
    (∀ s : List Char, (∀ t ∈ toks, hasMatchB t s = false) →
        parseArtists s = ((splitComma s).map pyStrip).filter (fun p => !p.isEmpty))
    ∧ parseArtists "Artist A feat. Artist B".toList
        = ["Artist A".toList, "Artist B".toList]
    ∧ parseArtists "Artist A & Artist B and Artist C".toList
        = ["Artist A".toList, "Artist B".toList, "Artist C".toList]
    ∧ parseArtists "Big Band Boom".toList = ["Big Band Boom".toList]
    ∧ parseArtists "A, B".toList = ["A".toList, "B".toList] := by
  refine ⟨?_, by decide, by decide, by decide, by decide⟩
  intro s hnm
  unfold parseArtists
  by_cases hs : s.isEmpty
  · rw [if_pos hs]
    have : s = [] := List.isEmpty_iff.mp hs
    subst this
    rfl
  · rw [if_neg hs, substAll_id hnm]

/-- Witness for the amended C2 at a comma-containing input. -/
theorem C2_amended_witness :
    parseArtists "A, B".toList
      = ((splitComma "A, B".toList).map pyStrip).filter (fun p => !p.isEmpty) :=
  C2_amended.1 "A, B".toList (by decide)

/-- C4 counterexample: a nonempty credit with no recognized separator
token but with a comma is split at the comma, not returned whole. -/
theorem C4_counterexample :
    hasMatchB tokFeat "Tyler, The Creator".toList = false
    ∧ hasMatchB tokFt "Tyler, The Creator".toList = false
    ∧ hasMatchB tokFeaturing "Tyler, The Creator".toList = false
    ∧ hasMatchB tokAmp "Tyler, The Creator".toList = false
    ∧ hasMatchB tokAnd "Tyler, The Creator".toList = false
    ∧ "Tyler, The Creator".toList ≠ []
    ∧ parseArtists "Tyler, The Creator".toList
        ≠ [pyStrip "Tyler, The Creator".toList]
    ∧ parseArtists "Tyler, The Creator".toList
        = ["Tyler".toList, "The Creator".toList] := by decide

/-- C4 amended: a credit string with no recognized separator token, no
comma, and a nonblank trim parses to the single-element list holding its
trimmed form. -/
theorem C4_amended (s : List Char) (hnm : ∀ t ∈ toks, hasMatchB t s = false)
    (hnc : ',' ∉ s) (hne : pyStrip s ≠ []) : parseArtists s = [pyStrip s] := by
  have hsne : s ≠ [] := by rintro rfl; exact hne rfl
  unfold parseArtists
  rw [if_neg (by simpa [List.isEmpty_iff] using hsne)]
  rw [substAll_id hnm, splitComma_eq_single hnc]
  simp [List.filter, List.isEmpty_eq_false.mpr hne]

/-- Witness for the amended C4. -/
theorem C4_amended_witness :
    parseArtists "Tyler The Creator".toList = [pyStrip "Tyler The Creator".toList] :=
  C4_amended "Tyler The Creator".toList (by decide) (by decide) (by decide)

/-- C3 counterexample: on a FLAC or Ogg field already storing the two
native values A and A feat. B, the engine decides no change is needed
(it reads only the first value), while the comparison the claim
describes, parsed list against the current native list, reports a
difference. -/
theorem C3_counterexample :
    engineWouldChangeNative ["A".toList, "A feat. B".toList] = false
    ∧ specWouldChangeNative ["A".toList, "A feat. B".toList] = true := by decide

/-- C3 amended: for the NativeList convention the no-change decision
inspects only the first stored native value: it is unchanged under any
replacement of the remaining stored values, an absent field never
changes, and on a populated field it is exactly the first-value test of
the source (parsed list nonempty, and more than one entry or first
entry differing from the stored first value); it never compares against
the full current native list. -/
theorem C3_amended :
    (∀ (a : List Char) (rest rest' : Field),
        engineWouldChangeNative (a :: rest) = engineWouldChangeNative (a :: rest'))
    ∧ engineWouldChangeNative [] = false
    ∧ (∀ (a : List Char) (rest : Field),
        engineWouldChangeNative (a :: rest)
          = (!a.isEmpty &&
              (!(parseArtists a).isEmpty &&
                (decide (1 < (parseArtists a).length)
                  || decide (a ≠ (parseArtists a).headD []))))) := by
  refine ⟨?_, rfl, ?_⟩
  · intro a rest rest'
    rfl
  · intro a rest
    unfold engineWouldChangeNative wouldChange
    dsimp only [readField, List.head?, Option.getD]
    by_cases hp : (parseArtists a).isEmpty
    · rw [if_pos hp]
      simp [hp]
    · rw [if_neg hp]
      simp only [hp]
      cases a.isEmpty <;> simp

/-- C10: the engine reads only the first stored native value.  The
change decision on a multi-valued field equals the decision on the first
value alone; when a change is decided the whole field is replaced by the
parse of the first value, discarding every later stored value; when no
change is decided the field is left alone. -/
theorem C10_first_value_only :
    ∀ (a : List Char) (rest : Field), rest ≠ [] →
      engineWouldChangeNative (a :: rest) = engineWouldChangeNative [a]
      ∧ (engineWouldChangeNative (a :: rest) = true →
          flacArtistStep (a :: rest) = parseArtists a)
      ∧ (engineWouldChangeNative (a :: rest) = false →
          flacArtistStep (a :: rest) = a :: rest) := by
  intro a rest hne
  refine ⟨rfl, ?_, ?_⟩
  · intro h
    unfold flacArtistStep
    rw [phaseStep_false_true]
    have hg : (!((readField (a :: rest)).getD []).isEmpty
        && wouldChange Conv.native ((readField (a :: rest)).getD [])) = true := h
    rw [if_pos hg]
    rfl
  · intro h
    unfold flacArtistStep
    rw [phaseStep_false_true]
    have hg : (!((readField (a :: rest)).getD []).isEmpty
        && wouldChange Conv.native ((readField (a :: rest)).getD [])) = false := h
    rw [if_neg (by simp [hg])]

/-- Witness for C10 at a concrete two-valued field. -/
theorem C10_first_value_only_witness :
    engineWouldChangeNative ["A feat. B".toList, "C".toList]
        = engineWouldChangeNative ["A feat. B".toList]
    ∧ flacArtistStep ["A feat. B".toList, "C".toList]
        = parseArtists "A feat. B".toList := by
  have h := C10_first_value_only "A feat. B".toList ["C".toList] (by decide)
  exact ⟨h.1, h.2.1 (by decide)⟩

/-- C5: when a field update fails in a non-dry run, the engine signals
failure for that file, attempts no further field, creates no backup,
performs no save, and leaves the on-disk tags untouched. -/
theorem C5_write_failure :
    ∀ (conv : Conv) (bkp okA okAA : Bool) (path ts : String) (init : Tags),
      (updateMusicFile conv false bkp okA okAA path ts init).1.success = false →
        (updateMusicFile conv false bkp okA okAA path ts init).2.disk = init
        ∧ (updateMusicFile conv false bkp okA okAA path ts init).2.backups = []
        ∧ Ev.save ∉ (updateMusicFile conv false bkp okA okAA path ts init).2.events
        ∧ Ev.backup ∉ (updateMusicFile conv false bkp okA okAA path ts init).2.events
        ∧ ((updateMusicFile conv false bkp okA okAA path ts init).2.events
              = [Ev.writeArtist false]
            ∧ (updateMusicFile conv false bkp okA okAA path ts init).1.msg
              = "Failed to update artist"
          ∨ (∃ pre, (updateMusicFile conv false bkp okA okAA path ts init).2.events
                = pre ++ [Ev.writeAlbum false]
              ∧ (pre = [] ∨ pre = [Ev.writeArtist true]))
            ∧ (updateMusicFile conv false bkp okA okAA path ts init).1.msg
              = "Failed to update album artist") := by
  intro conv bkp okA okAA path ts init
  unfold updateMusicFile
  dsimp only []
  rcases hPA : phaseStep conv false okA Ev.writeArtist
      ((readField init.artist).getD []) with _ | ⟨fA, chA, prA, evA⟩
  · intro _
    exact ⟨rfl, rfl, by simp, by simp, Or.inl ⟨rfl, rfl⟩⟩
  · try dsimp only []
    have hevA := phaseStep_some_events hPA
    rcases hPAA : phaseStep conv false okAA Ev.writeAlbum
        ((readField init.albumArtist).getD []) with _ | ⟨fAA, chAA, prAA, evAA⟩
    · intro _
      refine ⟨rfl, rfl, ?_, ?_, Or.inr ⟨⟨evA, rfl, hevA⟩, rfl⟩⟩
      · rcases hevA with rfl | rfl <;> simp
      · rcases hevA with rfl | rfl <;> simp
    · try dsimp only []
      by_cases hch : (chA || chAA) = true
      · rw [if_pos hch]
        intro h
        simp at h
      · rw [if_neg hch]
        intro h
        simp at h

/-- Witness for C5: the artist update fails on a pending change. -/
theorem C5_write_failure_witness :
    (updateMusicFile Conv.delim false true false true "p" "t"
        ⟨["A feat. B".toList], []⟩).2.disk = ⟨["A feat. B".toList], []⟩
    ∧ (updateMusicFile Conv.delim false true false true "p" "t"
        ⟨["A feat. B".toList], []⟩).2.backups = [] := by
  have h := C5_write_failure Conv.delim true false true "p" "t"
    ⟨["A feat. B".toList], []⟩ (by decide)
  exact ⟨h.1, h.2.1⟩

/-- C6: with backups enabled in a non-dry run, a mutated file implies a
save event, and any save is preceded by exactly one backup naming the
original path with the backup suffix and holding the pre-run tags, with
no earlier backup or save; the sidecar flow likewise backs up the
pre-run document exactly once when it mutates the file. -/
theorem C6_backup :
    (∀ (conv : Conv) (okA okAA : Bool) (path ts : String) (init : Tags),
      ((updateMusicFile conv false true okA okAA path ts init).2.disk ≠ init →
          Ev.save ∈ (updateMusicFile conv false true okA okAA path ts init).2.events)
      ∧ (Ev.save ∈ (updateMusicFile conv false true okA okAA path ts init).2.events →
          (updateMusicFile conv false true okA okAA path ts init).2.backups
              = [(path ++ ".backup_" ++ ts, init)]
          ∧ ∃ pre, (updateMusicFile conv false true okA okAA path ts init).2.events
                = pre ++ [Ev.backup, Ev.save]
              ∧ Ev.backup ∉ pre ∧ Ev.save ∉ pre))
    ∧ (∀ (doc : NfoDoc) (path ts : String),
        (updateNfoFile (some doc) false true path ts).2.disk ≠ some doc →
          (updateNfoFile (some doc) false true path ts).2.backups
            = [(path ++ ".backup_" ++ ts, some doc)]) := by
  constructor
  · intro conv okA okAA path ts init
    unfold updateMusicFile
    dsimp only []
    rcases hPA : phaseStep conv false okA Ev.writeArtist
        ((readField init.artist).getD []) with _ | ⟨fA, chA, prA, evA⟩
    · exact ⟨fun hne => absurd rfl hne, fun hmem => absurd hmem (by simp)⟩
    · try dsimp only []
      have hevA := phaseStep_some_events hPA
      rcases hPAA : phaseStep conv false okAA Ev.writeAlbum
          ((readField init.albumArtist).getD []) with _ | ⟨fAA, chAA, prAA, evAA⟩
      · refine ⟨fun hne => absurd rfl hne, fun hmem => absurd hmem ?_⟩
        rcases hevA with rfl | rfl <;> simp
      · try dsimp only []
        have hevAA := phaseStep_some_events hPAA
        by_cases hch : (chA || chAA) = true
        · rw [if_pos hch]
          try dsimp only []
          rw [if_neg (by simp)]
          refine ⟨fun _ => by simp, fun _ => ⟨by rw [if_pos rfl], ?_⟩⟩
          refine ⟨evA ++ evAA, ?_, ?_, ?_⟩
          · rw [if_pos rfl]
            simp [List.append_assoc]
          · rcases hevA with rfl | rfl <;> rcases hevAA with rfl | rfl <;> simp
          · rcases hevA with rfl | rfl <;> rcases hevAA with rfl | rfl <;> simp
        · rw [if_neg hch]
          refine ⟨fun hne => absurd rfl hne, fun hmem => absurd hmem ?_⟩
          rcases hevA with rfl | rfl <;> rcases hevAA with rfl | rfl <;> simp
  · intro doc path ts
    cases hpr : (nfoProcess false doc).2 with
    | false =>
      rw [updateNfoFile_process_false hpr]
      exact fun hne => absurd rfl hne
    | true =>
      rw [updateNfoFile_process_true hpr]
      intro _
      rw [if_pos rfl]

/-- Witness for C6 on a file with a pending artist change. -/
theorem C6_backup_witness :
    (updateMusicFile Conv.delim false true true true "p" "t"
        ⟨["A feat. B".toList], []⟩).2.backups
      = [("p" ++ ".backup_" ++ "t", ⟨["A feat. B".toList], []⟩)] := by
  have h := (C6_backup.1 Conv.delim true true "p" "t"
    ⟨["A feat. B".toList], []⟩).2 (by decide)
  exact h.1

/-- C7: a preview (dry-run) pass performs no on-disk mutation at all --
no write, no backup, no events -- reports success, prints exactly the
proposals the inspect step computes, reports a pending change exactly
when a proposal exists, and labels the outcome with the dry-run message
or the no-changes message; the sidecar flow likewise leaves the document
and backups untouched in a dry run. -/
theorem C7_preview :
    (∀ (conv : Conv) (bkp okA okAA : Bool) (path ts : String) (init : Tags),
      (updateMusicFile conv true bkp okA okAA path ts init).2.disk = init
      ∧ (updateMusicFile conv true bkp okA okAA path ts init).2.backups = []
      ∧ (updateMusicFile conv true bkp okA okAA path ts init).2.events = []
      ∧ (updateMusicFile conv true bkp okA okAA path ts init).1.success = true
      ∧ (updateMusicFile conv true bkp okA okAA path ts init).2.printed
          = musicProposals conv init
      ∧ (updateMusicFile conv true bkp okA okAA path ts init).1.changed
          = !(musicProposals conv init).isEmpty
      ∧ ((updateMusicFile conv true bkp okA okAA path ts init).1.changed = true →
          (updateMusicFile conv true bkp okA okAA path ts init).1.msg
            = "Would be updated (dry run)")
      ∧ ((updateMusicFile conv true bkp okA okAA path ts init).1.changed = false →
          (updateMusicFile conv true bkp okA okAA path ts init).1.msg
            = "No changes needed"))
    ∧ (∀ (doc : NfoDoc) (bkp : Bool) (path ts : String),
        (updateNfoFile (some doc) true bkp path ts).2.disk = some doc
        ∧ (updateNfoFile (some doc) true bkp path ts).2.backups = []
        ∧ (updateNfoFile (some doc) true bkp path ts).1.success = true
        ∧ ((updateNfoFile (some doc) true bkp path ts).1.changed = true →
            (updateNfoFile (some doc) true bkp path ts).1.msg
              = "Would be updated (dry run)")
        ∧ ((updateNfoFile (some doc) true bkp path ts).1.changed = false →
            (updateNfoFile (some doc) true bkp path ts).1.msg
              = "No changes needed")) := by
  constructor
  · intro conv bkp okA okAA path ts init
    unfold updateMusicFile musicProposals
    dsimp only []
    rw [phaseStep_dry, phaseStep_dry]
    by_cases hgA : (!((readField init.artist).getD []).isEmpty
        && wouldChange conv ((readField init.artist).getD [])) = true
    · rw [if_pos hgA, if_pos hgA]
      by_cases hgAA : (!((readField init.albumArtist).getD []).isEmpty
          && wouldChange conv ((readField init.albumArtist).getD [])) = true
      · rw [if_pos hgAA, if_pos hgAA]
        exact ⟨rfl, rfl, rfl, rfl, rfl, rfl, fun _ => rfl, fun hc => by simp at hc⟩
      · rw [if_neg hgAA, if_neg hgAA]
        exact ⟨rfl, rfl, rfl, rfl, rfl, rfl, fun _ => rfl, fun hc => by simp at hc⟩
    · rw [if_neg hgA, if_neg hgA]
      by_cases hgAA : (!((readField init.albumArtist).getD []).isEmpty
          && wouldChange conv ((readField init.albumArtist).getD [])) = true
      · rw [if_pos hgAA, if_pos hgAA]
        exact ⟨rfl, rfl, rfl, rfl, rfl, rfl, fun _ => rfl, fun hc => by simp at hc⟩
      · rw [if_neg hgAA, if_neg hgAA]
        exact ⟨rfl, rfl, rfl, rfl, rfl, rfl, fun hc => by simp at hc, fun _ => rfl⟩
  · intro doc bkp path ts
    unfold updateNfoFile
    dsimp only []
    cases hpr : (nfoProcess true doc).2 with
    | false =>
      exact ⟨rfl, rfl, rfl, fun hc => by simp at hc, fun _ => rfl⟩
    | true =>
      exact ⟨rfl, rfl, rfl, fun _ => rfl, fun hc => by simp at hc⟩

/-- Witness for C7 on a file with a pending change. -/
theorem C7_preview_witness :
    (updateMusicFile Conv.delim true true true true "p" "t"
        ⟨["A feat. B".toList], []⟩).1.msg = "Would be updated (dry run)"
    ∧ (updateMusicFile Conv.delim true true true true "p" "t"
        ⟨["A feat. B".toList], []⟩).2.disk = ⟨["A feat. B".toList], []⟩ := by
  have h := C7_preview.1 Conv.delim true true true "p" "t" ⟨["A feat. B".toList], []⟩
  refine ⟨h.2.2.2.2.2.2.1 ?_, h.1⟩
  rw [h.2.2.2.2.2.1]
  decide

/-! ### Batch statistics -/

lemma statsFold_processed : ∀ (rs : List (Res × NfoWorld)) (s0 : Stats),
    (rs.foldl (fun s rw => statsStep s rw.1) s0).processed = s0.processed + rs.length := by
  intro rs
  induction rs with
  | nil => intro s0; simp
  | cons r rs ih =>
    intro s0
    rw [List.foldl_cons, ih]
    simp [statsStep]
    omega

lemma statsFold_errors : ∀ (rs : List (Res × NfoWorld)) (s0 : Stats),
    (rs.foldl (fun s rw => statsStep s rw.1) s0).errors
      = s0.errors + (rs.filter (fun rw => !rw.1.success)).length := by
  intro rs
  induction rs with
  | nil => intro s0; simp
  | cons r rs ih =>
    intro s0
    rw [List.foldl_cons, ih]
    by_cases hs : r.1.success
    · rw [List.filter_cons]
      simp [statsStep, hs]
    · rw [List.filter_cons]
      simp only [hs]
      simp [statsStep, hs]
      omega

/-- C8: an unparseable sidecar document is reported as a parse failure
with the file untouched and no backup; the batch counts every file as
processed, counts exactly the failed files as errors, and a failing file
in the middle of a batch leaves the processing of every other file
as it would have been -- no per-file error aborts the batch. -/
theorem C8_parse_failure :
    (∀ (dr bkp : Bool) (path ts : String),
        updateNfoFile none dr bkp path ts
          = (⟨false, false, "XML parse error"⟩, ⟨none, []⟩))
    ∧ (∀ (dr bkp : Bool) (path ts : String) (files : List (Option NfoDoc)),
        (processNfoBatch dr bkp path ts files).1.processed = files.length
        ∧ (processNfoBatch dr bkp path ts files).1.errors
            = ((processNfoBatch dr bkp path ts files).2.filter
                (fun rw => !rw.1.success)).length)
    ∧ (∀ (dr bkp : Bool) (path ts : String) (xs ys : List (Option NfoDoc)),
        (processNfoBatch dr bkp path ts (xs ++ none :: ys)).2
          = (processNfoBatch dr bkp path ts xs).2
            ++ (⟨false, false, "XML parse error"⟩, ⟨none, []⟩)
              :: (processNfoBatch dr bkp path ts ys).2
        ∧ 1 ≤ (processNfoBatch dr bkp path ts (xs ++ none :: ys)).1.errors) := by
  refine ⟨fun _ _ _ _ => rfl, ?_, ?_⟩
  · intro dr bkp path ts files
    constructor
    · unfold processNfoBatch
      dsimp only []
      rw [statsFold_processed]
      simp
    · unfold processNfoBatch
      dsimp only []
      rw [statsFold_errors]
      simp
  · intro dr bkp path ts xs ys
    constructor
    · unfold processNfoBatch
      dsimp only []
      rw [List.map_append, List.map_cons]
      rfl
    · unfold processNfoBatch
      dsimp only []
      rw [statsFold_errors]
      rw [List.map_append, List.map_cons, List.filter_append, List.filter_cons]
      have hsu : (!(updateNfoFile none dr bkp path ts).1.success) = true := rfl
      rw [if_pos hsu]
      simp only [List.length_append, List.length_cons]
      omega

/-! ###C9: the genre trigger and replacement -/

lemma needsGenreFetch_false_eq (gs : List (List Char)) :
    needsGenreFetch false gs =
      (gs.isEmpty || gs.all (fun g => g.isEmpty || (pyStrip g).isEmpty) ||
        (gs.length = 1 && !(gs.headD []).isEmpty &&
          decide ((pyStrip (gs.headD [])).map toLowerAscii = "music".toList))) := by
  unfold needsGenreFetch
  cases h1 : gs.isEmpty <;>
    cases h2 : gs.all (fun g => g.isEmpty || (pyStrip g).isEmpty) <;>
      cases h3 : (decide (gs.length = 1) && !(gs.headD []).isEmpty &&
          decide ((pyStrip (gs.headD [])).map toLowerAscii = "music".toList)) <;>
    simp [h1, h2, h3]

lemma blank_iff (g : List Char) :
    (g.isEmpty || (pyStrip g).isEmpty) = true ↔ pyStrip g = [] := by
  cases g with
  | nil => simp [pyStrip, dropTrailWs]
  | cons c t =>
    simp only [List.isEmpty_cons, Bool.false_or]
    exact List.isEmpty_iff

/-- C9 counterexample: a lone existing genre written music in lower case
triggers the fetch (the code strips and lower-cases before comparing),
although it is not the literal text Music, no genre field is missing and
not all genre fields are empty. -/
theorem C9_counterexample :
    needsGenreFetch false ["music".toList] = true
    ∧ claimGenreTrigger ["music".toList] = false := by decide

/-- C9 amended: with the force flag off, the fetch is triggered exactly
when there are no genre elements, all genre texts are blank after
stripping, or there is exactly one genre element whose truthy text
equals music case-insensitively after stripping; when triggered and the
lookup returns a non-empty list, the genre elements are replaced by
exactly the returned genres in order, one element each, and all other
elements are preserved. -/
theorem C9_amended :
    (∀ gs : List (List Char),
        needsGenreFetch false gs = true ↔
          gs = [] ∨ (∀ g ∈ gs, pyStrip g = [])
          ∨ (∃ g, gs = [g] ∧ g ≠ []
              ∧ (pyStrip g).map toLowerAscii = "music".toList))
    ∧ (∀ (root : List Elem) (fetched : List (List Char)), fetched ≠ [] →
        needsGenreFetch false ((root.filter isGenreTag).map Elem.text) = true →
          ((genrePhase false root fetched).filter isGenreTag).map Elem.text = fetched
          ∧ (genrePhase false root fetched).filter (fun e => !isGenreTag e)
              = root.filter (fun e => !isGenreTag e)) := by
  constructor
  · intro gs
    rw [needsGenreFetch_false_eq]
    simp only [Bool.or_eq_true, Bool.and_eq_true, decide_eq_true_eq]
    constructor
    · rintro ((h | h) | ⟨⟨hlen, hne⟩, hmus⟩)
      · exact Or.inl (List.isEmpty_iff.mp h)
      · refine Or.inr (Or.inl ?_)
        intro g hg
        exact (blank_iff g).mp (List.all_eq_true.mp h g hg)
      · refine Or.inr (Or.inr ?_)
        rcases gs with _ | ⟨g, rest⟩
        · simp at hlen
        · rcases rest with _ | ⟨g2, rest2⟩
          · refine ⟨g, rfl, ?_, ?_⟩
            · intro h0
              rw [h0] at hne
              simp at hne
            · simpa using hmus
          · simp at hlen
    · rintro (h | h | ⟨g, rfl, hne, hmus⟩)
      · subst h
        simp
      · by_cases h0 : gs.isEmpty
        · simp [h0]
        · refine Or.inl (Or.inr ?_)
          rw [List.all_eq_true]
          intro g hg
          exact (blank_iff g).mpr (h g hg)
      · refine Or.inr ⟨⟨rfl, ?_⟩, ?_⟩
        · simpa [List.isEmpty_eq_false] using hne
        · simpa using hmus
  · intro root fetched hf htr
    unfold genrePhase
    dsimp only []
    rw [if_pos htr, if_pos (by simpa [List.isEmpty_eq_false] using hf)]
    unfold applyGenres
    constructor
    · rw [List.filter_append, List.filter_filter]
      have h1 : (root.filter fun a => isGenreTag a && !isGenreTag a) = [] := by
        simp
      rw [h1, List.nil_append]
      have h2 : (fetched.map (fun g => Elem.mk "genre".toList g)).filter isGenreTag
          = fetched.map (fun g => Elem.mk "genre".toList g) := by
        rw [List.filter_eq_self]
        intro e he
        rcases List.mem_map.mp he with ⟨g, _, rfl⟩
        simp [isGenreTag]
      rw [h2, List.map_map]
      rw [show (Elem.text ∘ fun g => Elem.mk "genre".toList g) = id from rfl, List.map_id]
    · rw [List.filter_append, List.filter_filter]
      have h1 : (fetched.map (fun g => Elem.mk "genre".toList g)).filter
          (fun e => !isGenreTag e) = [] := by
        rw [List.filter_eq_nil_iff]
        intro e he
        rcases List.mem_map.mp he with ⟨g, _, rfl⟩
        simp [isGenreTag]
      rw [h1, List.append_nil]
      have hpe : (fun a => (!isGenreTag a) && !isGenreTag a)
          = (fun e => !isGenreTag e) := by
        funext a
        cases isGenreTag a <;> rfl
      rw [hpe]

/-- Witness for C9 on the spec scenario: the only genre is Music, the
lookup returns Rock and Pop, and the genre elements are replaced by
exactly those. -/
theorem C9_amended_witness :
    ((genrePhase false [⟨"genre".toList, "Music".toList⟩]
        ["Rock".toList, "Pop".toList]).filter isGenreTag).map Elem.text
      = ["Rock".toList, "Pop".toList] :=
  (C9_amended.2 [⟨"genre".toList, "Music".toList⟩]
    ["Rock".toList, "Pop".toList] (by decide) (by decide)).1


end Jellyfin
